import Mathlib

/-!
# crossnzb: availability check of NZB articles over NNTP

A shallow embedding of `src/NNTP/NNTPClient.cpp` and `src/main.cpp`.

* A `std::string` is a list of `char`s.
* An exception is the `Except.error` branch, carrying the text of `e.what()`.
* The network peer of one connection is a `Remote`: what connecting, each write
  and each read does, as a function of what has been written on that connection.
* Threads are interleaved at the granularity of the atomic actions of the source
  (one critical section of the queue, one atomic increment, one call of the
  client); a schedule lists the worker that performs each action.
* The counters are `int`: an increment wraps around on 32 bits.
* A `double` is a sign, a significand and an exponent, with round-to-nearest-even
  arithmetic on integers; its insertion into a stream follows `%g` with precision 6.
* The document tree is the tree that pugixml hands to `processServer`.
* Writes to `std::cout` and `std::cerr` are not part of the model.
-/

namespace CrossNzb

/-! ## Strings -/

/-- A `std::string`: the sequence of its `char`s. -/
abbrev CppString := List Char

/-- The call `std::getline(stream, line)`: the characters before the first line feed,
or the whole content when there is none. -/
def getline (buffer : CppString) : CppString :=
  buffer.takeWhile (fun ch => ch != '\n')

/-- The statement `if (!line.empty() && line.back() == '\r') line.pop_back();`. -/
def stripCR (line : CppString) : CppString :=
  if line.getLast? = some '\r' then line.dropLast else line

/-! ## NNTPClient (src/NNTP/NNTPClient.cpp) -/

/-- Outcome of one `asio::read_until(socket, buffer, "\r\n", error)`. -/
inductive ReadOutcome where
  /-- No error: `buffer` holds the received data, which contains the delimiter. -/
  | delimited (buffer : CppString)
  /-- The error is `asio::error::eof`: `buffer` holds what arrived before the end of stream. -/
  | eof (buffer : CppString)
  /-- Any other error; `what` is the text of the `system_error` thrown for it. -/
  | failure (what : CppString)

/-- The environment of one connection. `none` in `establish` and `write` means
that the operation did not throw; `some what` that it threw with text `what`. -/
structure Remote where
  /-- Resolving `server:port`, connecting and (with SSL) the handshake. -/
  establish : CppString → Int → Option CppString
  /-- One `asio::write`, given the data written so far and the data to write. -/
  write : List CppString → CppString → Option CppString
  /-- One `asio::read_until`, given the data written so far. -/
  read : List CppString → ReadOutcome

/-- The client object. Both sockets of the source are represented by the `Remote`;
`written` records the data of every `asio::write` that returned. -/
structure NNTPClient where
  useSSL_ : Bool
  written : List CppString

/-- The method `NNTPClient::readResponse` (lines 104-133). -/
def NNTPClient.readResponse (r : Remote) (c : NNTPClient) : Except CppString CppString :=
  match r.read c.written with
  | .failure what => .error ("Failed to read response: ".toList ++ what)
  | .delimited buffer => .ok (stripCR (getline buffer))
  | .eof buffer => .ok (stripCR (getline buffer))

/-- The method `NNTPClient::sendCommand` (lines 87-102). -/
def NNTPClient.sendCommand (r : Remote) (c : NNTPClient) (command : CppString) :
    Except CppString CppString × NNTPClient :=
  let cmd := command ++ "\r\n".toList
  match r.write c.written cmd with
  | some what =>
    (.error ("Failed to send command '".toList ++ command ++ "': ".toList ++ what), c)
  | none =>
    let c1 : NNTPClient := { c with written := c.written ++ [cmd] }
    (c1.readResponse r, c1)

/-- The method `NNTPClient::connect` (lines 40-62). -/
def NNTPClient.connect (r : Remote) (c : NNTPClient) (server : CppString) (port : Int) :
    Except CppString Unit × NNTPClient :=
  match r.establish server port with
  | some what => (.error ("Connection error: ".toList ++ what), c)
  | none =>
    match c.readResponse r with
    | .error what => (.error ("Connection error: ".toList ++ what), c)
    | .ok _ => (.ok (), c)

/-- The method `NNTPClient::login` (lines 64-76); `substr(0, 3)` is `take 3`. -/
def NNTPClient.login (r : Remote) (c : NNTPClient) (username password : CppString) :
    Except CppString Unit × NNTPClient :=
  match c.sendCommand r ("AUTHINFO USER ".toList ++ username) with
  | (.error what, c1) => (.error what, c1)
  | (.ok response, c1) =>
    if response.take 3 ≠ "381".toList then
      (.error ("AUTHINFO USER failed: ".toList ++ response), c1)
    else
      match c1.sendCommand r ("AUTHINFO PASS ".toList ++ password) with
      | (.error what, c2) => (.error what, c2)
      | (.ok response2, c2) =>
        if response2.take 3 ≠ "281".toList then
          (.error ("AUTHINFO PASS failed: ".toList ++ response2), c2)
        else
          (.ok (), c2)

/-- The method `NNTPClient::checkNZBExists` (lines 78-85). -/
def NNTPClient.checkNZBExists (r : Remote) (c : NNTPClient) (messageID : CppString) :
    Except CppString Bool × NNTPClient :=
  match c.sendCommand r ("STAT <".toList ++ messageID ++ ">".toList) with
  | (.error what, c1) => (.error what, c1)
  | (.ok response, c1) =>
    if response.length < 3 then
      (.error ("Invalid response for STAT command: ".toList ++ response), c1)
    else
      (.ok (response.take 3 == "223".toList), c1)

/-- The destructor (lines 17-38): `QUIT` is sent and every exception is swallowed. -/
def NNTPClient.destroy (r : Remote) (c : NNTPClient) : NNTPClient :=
  (c.sendCommand r "QUIT".toList).2

/-- A peer that accepts the connection and every write, and answers every read
with the line `reply written`. -/
def lineServer (reply : List CppString → CppString) : Remote where
  establish := fun _ _ => none
  write := fun _ _ => none
  read := fun written => .delimited (reply written ++ "\r\n".toList)

/-! ## ThreadSafeQueue (src/main.cpp, lines 17-48) -/

/-- The members `queue_` (front first) and `finished_`; the mutex and the
condition variable are represented by the atomicity of the operations below. -/
structure ThreadSafeQueue where
  queue_ : List CppString
  finished_ : Bool

/-- The queue as constructed: empty, `finished_ = false`. -/
def ThreadSafeQueue.new : ThreadSafeQueue := { queue_ := [], finished_ := false }

/-- The method `push` (lines 19-23). -/
def ThreadSafeQueue.push (q : ThreadSafeQueue) (articleId : CppString) : ThreadSafeQueue :=
  { q with queue_ := q.queue_ ++ [articleId] }

/-- The method `set_finished` (lines 37-41). -/
def ThreadSafeQueue.set_finished (q : ThreadSafeQueue) : ThreadSafeQueue :=
  { q with finished_ := true }

/-- What one critical section of `try_pop` ends with. -/
inductive PopResult where
  /-- The loop condition holds: the thread waits on the condition variable and
  releases the mutex; it evaluates the condition again when it next runs. -/
  | waiting
  /-- The call returned `false`. -/
  | returnedFalse
  /-- The call returned `true` with `articleId` assigned. -/
  | returnedTrue (articleId : CppString)

/-- The method `try_pop` (lines 25-35): one critical section. -/
def ThreadSafeQueue.try_pop (q : ThreadSafeQueue) : PopResult × ThreadSafeQueue :=
  if q.queue_.isEmpty && !q.finished_ then
    (.waiting, q)
  else
    match q.queue_ with
    | [] => (.returnedFalse, q)
    | front :: rest => (.returnedTrue front, { q with queue_ := rest })

/-- One critical section executed on a queue by some thread. -/
inductive QueueOp where
  | push (articleId : CppString)
  | set_finished
  | try_pop (consumer : Nat)

/-- A queue together with the record of what `try_pop` has returned so far:
the consumer and the identifier of every call that returned `true`, oldest first. -/
structure QueueRun where
  queue : ThreadSafeQueue
  delivered : List (Nat × CppString)

/-- Effect of one critical section. -/
def QueueRun.step (s : QueueRun) : QueueOp → QueueRun
  | .push articleId => { s with queue := s.queue.push articleId }
  | .set_finished => { s with queue := s.queue.set_finished }
  | .try_pop consumer =>
    match s.queue.try_pop with
    | (.returnedTrue articleId, q) =>
      { queue := q, delivered := s.delivered ++ [(consumer, articleId)] }
    | (_, q) => { s with queue := q }

/-- An interleaving of critical sections, executed on a new queue. -/
def QueueRun.exec (ops : List QueueOp) : QueueRun :=
  ops.foldl QueueRun.step { queue := ThreadSafeQueue.new, delivered := [] }

/-- The identifiers pushed by an interleaving, in the order of the pushes. -/
def pushedIds : List QueueOp → List CppString
  | [] => []
  | .push articleId :: ops => articleId :: pushedIds ops
  | _ :: ops => pushedIds ops

/-! ## Binary64 arithmetic and stream formatting used by writeReport -/

/-- Number of binary digits of `n`, computed with `fuel` halvings. -/
def bitsAux : Nat → Nat → Nat
  | 0, _ => 0
  | fuel + 1, n => if n = 0 then 0 else bitsAux fuel (n / 2) + 1

/-- Number of binary digits of `n` (0 for 0). -/
def bits (n : Nat) : Nat := bitsAux n n

/-- The quotient `p / q` rounded to the nearest integer, ties to even. -/
def roundNE (p q : Nat) : Nat :=
  if 2 * (p % q) < q then p / q
  else if q < 2 * (p % q) then p / q + 1
  else if (p / q) % 2 = 0 then p / q
  else p / q + 1

/-- The fraction `p / q` divided by `2 ^ e`, as a numerator and a denominator. -/
def scale2 (p q : Nat) (e : Int) : Nat × Nat :=
  if 0 ≤ e then (p, q * 2 ^ e.toNat) else (p * 2 ^ (-e).toNat, q)

/-- A value of type `double`: `finite neg mant exp` is `(-1)^neg * mant * 2^exp`. -/
inductive Double where
  | finite (neg : Bool) (mant : Nat) (exp : Int)
  | inf (neg : Bool)
  | nan

/-- The literal `0.0`. -/
def Double.zero : Double := .finite false 0 0

/-- The `double` nearest to `(-1)^neg * p / q` for `q > 0` (round to nearest,
ties to even; 53 significant bits, exponent of the last place between -1074 and
971, infinity beyond the largest finite value, zero below half the smallest). -/
def Double.round (neg : Bool) (p q : Nat) : Double :=
  if p = 0 then .finite neg 0 0
  else
    let d : Int := (bits p : Int) - (bits q : Int)
    let e0 : Int := if (scale2 p q d).1 < (scale2 p q d).2 then d - 53 else d - 52
    let e : Int := max e0 (-1074)
    let m := roundNE (scale2 p q e).1 (scale2 p q e).2
    let m1 := if m = 2 ^ 53 then 2 ^ 52 else m
    let e1 : Int := if m = 2 ^ 53 then e + 1 else e
    if 971 < e1 then .inf neg
    else if m1 = 0 then .finite neg 0 0
    else .finite neg m1 e1

/-- The conversion `static_cast<double>(n)` and the promotion of an `int` operand. -/
def Double.ofInt (n : Int) : Double := Double.round (decide (n < 0)) n.natAbs 1

/-- The operator `/` on `double`. -/
def Double.div : Double → Double → Double
  | .nan, _ => .nan
  | _, .nan => .nan
  | .inf _, .inf _ => .nan
  | .inf s, .finite t _ _ => .inf (xor s t)
  | .finite s _ _, .inf t => .finite (xor s t) 0 0
  | .finite s ma ea, .finite t mb eb =>
    if mb = 0 then (if ma = 0 then .nan else .inf (xor s t))
    else Double.round (xor s t) (scale2 ma mb (eb - ea)).1 (scale2 ma mb (eb - ea)).2

/-- The operator `*` on `double`. -/
def Double.mul : Double → Double → Double
  | .nan, _ => .nan
  | _, .nan => .nan
  | .inf s, .inf t => .inf (xor s t)
  | .inf s, .finite t mb _ => if mb = 0 then .nan else .inf (xor s t)
  | .finite s ma _, .inf t => if ma = 0 then .nan else .inf (xor s t)
  | .finite s ma ea, .finite t mb eb =>
    Double.round (xor s t) (scale2 (ma * mb) 1 (-(ea + eb))).1 (scale2 (ma * mb) 1 (-(ea + eb))).2

/-- The rational number that a finite `double` denotes. -/
def Double.toRat : Double → Option ℚ
  | .finite neg mant exp => some ((if neg then -1 else 1) * (mant : ℚ) * (2 : ℚ) ^ exp)
  | _ => none

/-- The largest `k` (at most `fuel`) with `q * 10 ^ k ≤ p`. -/
def pow10Below : Nat → Nat → Nat → Nat
  | 0, _, _ => 0
  | fuel + 1, p, q => if q * 10 ≤ p then pow10Below fuel p (q * 10) + 1 else 0

/-- The smallest `k` (at most `fuel`) with `q ≤ p * 10 ^ k`. -/
def pow10Above : Nat → Nat → Nat → Nat
  | 0, _, _ => 0
  | fuel + 1, p, q => if p < q then pow10Above fuel (p * 10) q + 1 else 0

/-- The decimal exponent of `p / q` for `p, q > 0`: the `x` with `10^x ≤ p/q < 10^(x+1)`. -/
def decimalExponent (p q : Nat) : Int :=
  if q ≤ p then (pow10Below (bits p) p q : Int) else -(pow10Above (bits q) p q : Int)

/-- Removal of trailing zeros. -/
def stripZeros (digits : CppString) : CppString :=
  (digits.reverse.dropWhile (fun ch => ch == '0')).reverse

/-- A fraction part with its decimal point, or nothing when it has no digit left. -/
def pointFraction (digits : CppString) : CppString :=
  if stripZeros digits = [] then [] else '.' :: stripZeros digits

/-- The exponent field of the scientific style: a sign and at least two digits. -/
def exponentField (x : Int) : CppString :=
  (if x < 0 then '-' else '+') ::
    (if x.natAbs < 10 then '0' :: Nat.toDigits 10 x.natAbs else Nat.toDigits 10 x.natAbs)

/-- Formatting of the magnitude `p / q > 0` as `%g` with precision 6: six
significant digits (rounded to nearest, ties to even), fixed style when the
decimal exponent is between -4 and 5 and scientific style otherwise, trailing
zeros removed. -/
def formatG6 (p q : Nat) : CppString :=
  let x0 := decimalExponent p q
  let m0 :=
    if x0 ≤ 5 then roundNE (p * 10 ^ (5 - x0).toNat) q
    else roundNE p (q * 10 ^ (x0 - 5).toNat)
  let m := if m0 = 10 ^ 6 then 10 ^ 5 else m0
  let x : Int := if m0 = 10 ^ 6 then x0 + 1 else x0
  let digits := Nat.toDigits 10 m
  if x < -4 ∨ 6 ≤ x then
    digits.take 1 ++ pointFraction (digits.drop 1) ++ 'e' :: exponentField x
  else if 0 ≤ x then
    digits.take (x.toNat + 1) ++ pointFraction (digits.drop (x.toNat + 1))
  else
    '0' :: pointFraction (List.replicate ((-x).toNat - 1) '0' ++ digits)

/-- The insertion `stream << value` of a `double` into a stream in its initial
state (precision 6, no `fixed` or `scientific` flag). A NaN is written without
a sign; `availability` never yields one. -/
def formatDouble : Double → CppString
  | .nan => "nan".toList
  | .inf neg => (if neg then ['-'] else []) ++ "inf".toList
  | .finite neg mant exp =>
    (if neg then ['-'] else []) ++
      (if mant = 0 then ['0']
       else formatG6 (scale2 mant 1 (-exp)).1 (scale2 mant 1 (-exp)).2)

/-- The insertion `stream << value` of an `int`. -/
def formatInt (n : Int) : CppString :=
  (if n < 0 then ['-'] else []) ++ Nat.toDigits 10 n.natAbs

/-! ## writeReport (src/main.cpp, lines 51-60) -/

/-- The local `availability` of `writeReport` (line 52). -/
def availability (total available : Int) : Double :=
  if total > 0 then
    Double.mul (Double.div (Double.ofInt available) (Double.ofInt total)) (Double.ofInt 100)
  else
    Double.zero

/-- The line `Availability: ...%` written by `writeReport` (line 58). -/
def availabilityLine (total available : Int) : CppString :=
  "Availability: ".toList ++ formatDouble (availability total available) ++ "%\n".toList

/-- The function `writeReport`: the text appended to the report file. The dashes
of the first line are the characters of the source literal. -/
def writeReport (server : CppString) (total available : Int) : CppString :=
  "———————————————————————\n".toList
    ++ "Hostname: ".toList ++ server ++ "\n".toList
    ++ "Total Articles: ".toList ++ formatInt total ++ "\n".toList
    ++ "Available Articles: ".toList ++ formatInt available ++ "\n".toList
    ++ availabilityLine total available
    ++ "_____________________________________________\n\n".toList

/-! ## The document tree read by processServer (pugixml) -/

/-- The kinds of node that the source distinguishes (through `child_value`). -/
inductive NodeType where
  | element
  | pcdata
  | cdata
  | other
  deriving DecidableEq

/-- A node of the document tree: its kind, its name (empty when it has none),
its value (`none` when it has none) and its children in document order. -/
inductive XmlNode where
  | mk (type : NodeType) (name : CppString) (value : Option CppString)
      (children : List XmlNode)

/-- Kind of a node. -/
def XmlNode.type : XmlNode → NodeType
  | .mk t _ _ _ => t

/-- Name of a node. -/
def XmlNode.name : XmlNode → CppString
  | .mk _ n _ _ => n

/-- Value of a node. -/
def XmlNode.value : XmlNode → Option CppString
  | .mk _ _ v _ => v

/-- Children of a node, in document order. -/
def XmlNode.children : XmlNode → List XmlNode
  | .mk _ _ _ cs => cs

/-- A `pugi::xml_node` handle: `none` is the null handle, otherwise the node
and the siblings that follow it. -/
abbrev xml_node := Option (XmlNode × List XmlNode)

/-- The first node named `name` in a list of siblings, as a handle. -/
def firstNamed (name : CppString) : List XmlNode → xml_node
  | [] => none
  | n :: rest => if n.name = name then some (n, rest) else firstNamed name rest

/-- The method `xml_node::child(name)`: the first child with that name. -/
def xml_node.child (h : xml_node) (name : CppString) : xml_node :=
  match h with
  | none => none
  | some (n, _) => firstNamed name n.children

/-- The method `xml_node::next_sibling(name)`: the next sibling with that name. -/
def xml_node.next_sibling (h : xml_node) (name : CppString) : xml_node :=
  match h with
  | none => none
  | some (_, following) => firstNamed name following

/-- The value of the first child that is a text node and has a value, else the empty string. -/
def firstText : List XmlNode → CppString
  | [] => []
  | n :: rest =>
    if n.type = .pcdata ∨ n.type = .cdata then
      match n.value with
      | some v => v
      | none => firstText rest
    else firstText rest

/-- The method `xml_node::child_value()`. -/
def xml_node.child_value (h : xml_node) : CppString :=
  match h with
  | none => []
  | some (n, _) => firstText n.children

/-- Number of siblings after a handle, plus one: a bound on the iterations of a
loop `for (h = ...; h; h = h.next_sibling(name))`. -/
def xml_node.bound (h : xml_node) : Nat :=
  match h with
  | none => 0
  | some (_, following) => following.length + 1

/-- The loop `for (h = start; h; h = h.next_sibling(name)) body`, run for at most
`fuel` iterations on the state `s`. -/
def forSiblings {σ : Type} (name : CppString) (body : σ → xml_node → σ) :
    Nat → xml_node → σ → σ
  | 0, _, s => s
  | fuel + 1, h, s =>
    match h with
    | none => s
    | some _ => forSiblings name body fuel (h.next_sibling name) (body s h)

/-- The body of the inner loop of `processServer` (lines 81-84). -/
def enqueueSegment (q : ThreadSafeQueue) (segmentNode : xml_node) : ThreadSafeQueue :=
  if segmentNode.child_value ≠ [] then q.push segmentNode.child_value else q

/-- The body of the outer loop of `processServer` (lines 79-85). -/
def enqueueFile (q : ThreadSafeQueue) (fileNode : xml_node) : ThreadSafeQueue :=
  forSiblings "segment".toList enqueueSegment
    ((fileNode.child "segments".toList).child "segment".toList).bound
    ((fileNode.child "segments".toList).child "segment".toList) q

/-- The loops of `processServer` that fill the queue (lines 78-86). -/
def enqueueArticles (rootNode : xml_node) (q : ThreadSafeQueue) : ThreadSafeQueue :=
  forSiblings "file".toList enqueueFile
    (rootNode.child "file".toList).bound (rootNode.child "file".toList) q

/-- An element node. -/
def XmlNode.elem (name : String) (children : List XmlNode) : XmlNode :=
  .mk .element name.toList none children

/-- A text node holding parsed character data. -/
def XmlNode.text (value : String) : XmlNode :=
  .mk .pcdata [] (some value.toList) []

/-- The segment values of one `file` entry: the text of every child `segment`
of its first child `segments`, in order. -/
def fileSegmentValues (f : XmlNode) : List CppString :=
  match f.children.find? (fun g => g.name = "segments".toList) with
  | none => []
  | some g =>
    (g.children.filter (fun sg => sg.name = "segment".toList)).map
      (fun sg => firstText sg.children)

/-- The segment values of a manifest in document order: those of every child
`file` of the root, in order. -/
def segmentValues (rootNode : xml_node) : List CppString :=
  match rootNode with
  | none => []
  | some (root, _) =>
    (root.children.filter (fun f => f.name = "file".toList)).flatMap fileSegmentValues

/-- A value made of white space only (space, tab, line feed, carriage return). -/
def whitespaceOnly (v : CppString) : Bool :=
  v.all (fun ch => ch == ' ' || ch == '\t' || ch == '\n' || ch == '\r')

/-! ## processServer (src/main.cpp, lines 63-146) -/

/-- The values read from the server configuration (lines 67-72). -/
structure ServerConfig where
  server : CppString
  port : Int
  ssl : Bool
  username : CppString
  password : CppString
  connections : Int

/-- The increment of a `std::atomic<int>`: two-complement wrap-around on 32 bits. -/
def atomicInc (x : Int) : Int := (x + 1 + 2 ^ 31) % 2 ^ 32 - 2 ^ 31

/-- Where a worker thread stands in the lambda `worker` (lines 99-123). -/
inductive Pc where
  /-- Before `client.connect` (line 103). -/
  | start
  /-- After `connect`, before the test of `username` (line 106). -/
  | connected
  /-- At the call of `try_pop` in the loop condition (line 111). -/
  | loop
  /-- After `try_pop` returned `true`; before `totalArticles++` (line 112). -/
  | popped (articleId : CppString)
  /-- Before `checkNZBExists` (line 113). -/
  | counted (articleId : CppString)
  /-- After `checkNZBExists` returned `true`; before `availableArticles++` (line 114). -/
  | found
  /-- The loop ended because `try_pop` returned `false`; the thread has ended. -/
  | finished
  /-- An exception was caught by the handler (lines 118-122); the thread has ended. -/
  | failed (what : CppString)

/-- A worker thread: its position and its client object. -/
structure Worker where
  pc : Pc
  client : NNTPClient

/-- Whether the thread has ended without an exception. -/
def Worker.completed (w : Worker) : Bool :=
  match w.pc with
  | .finished => true
  | _ => false

/-- Whether the thread has ended. -/
def Worker.ended (w : Worker) : Bool :=
  match w.pc with
  | .finished => true
  | .failed _ => true
  | _ => false

/-- The variables shared by the workers of one server, and the workers
(the worker at index `i` is the thread with `threadId = i + 1`). -/
structure Pool where
  articleQueue : ThreadSafeQueue
  totalArticles : Int
  availableArticles : Int
  workers : List Worker

/-- The next atomic action of worker `i`; `remotes i` is the peer of its connection.
Nothing happens when there is no such worker or its thread has ended. -/
def Pool.step (cfg : ServerConfig) (remotes : Nat → Remote) (p : Pool) (i : Nat) : Pool :=
  match p.workers[i]? with
  | none => p
  | some w =>
    match w.pc with
    | .start =>
      match w.client.connect (remotes i) cfg.server cfg.port with
      | (.ok _, c) => { p with workers := p.workers.set i ⟨.connected, c⟩ }
      | (.error what, c) =>
        { p with workers := p.workers.set i ⟨.failed what, c.destroy (remotes i)⟩ }
    | .connected =>
      if cfg.username ≠ [] then
        match w.client.login (remotes i) cfg.username cfg.password with
        | (.ok _, c) => { p with workers := p.workers.set i ⟨.loop, c⟩ }
        | (.error what, c) =>
          { p with workers := p.workers.set i ⟨.failed what, c.destroy (remotes i)⟩ }
      else
        { p with workers := p.workers.set i ⟨.loop, w.client⟩ }
    | .loop =>
      match p.articleQueue.try_pop with
      | (.waiting, q) => { p with articleQueue := q }
      | (.returnedFalse, q) =>
        { p with
          articleQueue := q
          workers := p.workers.set i ⟨.finished, w.client.destroy (remotes i)⟩ }
      | (.returnedTrue articleId, q) =>
        { p with articleQueue := q, workers := p.workers.set i ⟨.popped articleId, w.client⟩ }
    | .popped articleId =>
      { p with
        totalArticles := atomicInc p.totalArticles
        workers := p.workers.set i ⟨.counted articleId, w.client⟩ }
    | .counted articleId =>
      match w.client.checkNZBExists (remotes i) articleId with
      | (.ok true, c) => { p with workers := p.workers.set i ⟨.found, c⟩ }
      | (.ok false, c) => { p with workers := p.workers.set i ⟨.loop, c⟩ }
      | (.error what, c) =>
        { p with workers := p.workers.set i ⟨.failed what, c.destroy (remotes i)⟩ }
    | .found =>
      { p with
        availableArticles := atomicInc p.availableArticles
        workers := p.workers.set i ⟨.loop, w.client⟩ }
    | .finished => p
    | .failed _ => p

/-- The state of `processServer` when the worker threads are launched (lines 75-129):
the queue filled from the document and marked finished, both counters zero, and
`maxConnections` workers (none when it is not positive) each with a new client. -/
def Pool.init (cfg : ServerConfig) (rootNode : xml_node) : Pool where
  articleQueue := (enqueueArticles rootNode ThreadSafeQueue.new).set_finished
  totalArticles := 0
  availableArticles := 0
  workers := List.replicate cfg.connections.toNat ⟨.start, ⟨cfg.ssl, []⟩⟩

/-- The pool after the workers have run as `schedule` tells: its `k`-th entry is
the index of the worker that performs the `k`-th atomic action. -/
def Pool.run (cfg : ServerConfig) (remotes : Nat → Remote) (rootNode : xml_node)
    (schedule : List Nat) : Pool :=
  schedule.foldl (Pool.step cfg remotes) (Pool.init cfg rootNode)

/-- All worker threads have ended: the joins of lines 132-135 return. -/
def Pool.joined (p : Pool) : Bool := p.workers.all Worker.ended

/-- The block that `processServer` writes to the report once the workers are joined
(lines 138-141). -/
def Pool.report (cfg : ServerConfig) (p : Pool) : CppString :=
  writeReport cfg.server p.totalArticles p.availableArticles

/-- The function `processServer` under a schedule: the report block, or `none` while some
worker has not ended (the function is still blocked in a join). -/
def processServer (cfg : ServerConfig) (remotes : Nat → Remote) (rootNode : xml_node)
    (schedule : List Nat) : Option CppString :=
  if (Pool.run cfg remotes rootNode schedule).joined then
    some ((Pool.run cfg remotes rootNode schedule).report cfg)
  else none

/-- The identifiers that `processServer` puts in the queue of a server: the
identifiers supplied for that server. -/
def suppliedIds (rootNode : xml_node) : List CppString :=
  (enqueueArticles rootNode ThreadSafeQueue.new).queue_

/-! ## Quantities used to state the invariants of the pool -/

/-- One for a worker that holds an identifier taken from the queue and not yet counted. -/
def Pc.uncounted : Pc → Nat
  | .popped _ => 1
  | _ => 0

/-- One for a worker that has counted an identifier in `totalArticles` and has
neither finished its check nor added it to `availableArticles`. -/
def Pc.unsettled : Pc → Nat
  | .counted _ => 1
  | .found => 1
  | _ => 0

/-- One for a worker that will add 1 to `availableArticles` for the identifier it
holds, when the server answers the check of `articleId` with `answer articleId`. -/
def Pc.owed (answer : CppString → Bool) : Pc → Nat
  | .popped articleId => if answer articleId then 1 else 0
  | .counted articleId => if answer articleId then 1 else 0
  | .found => 1
  | _ => 0

/-- Sum of a quantity over the workers of a list. -/
def tally (f : Pc → Nat) (workers : List Worker) : Nat :=
  (workers.map (fun w => f w.pc)).sum

/-- A bound on the number of atomic actions a worker still performs before it
ends or takes another identifier from the queue. -/
def Pc.rank : Pc → Nat
  | .start => 3
  | .connected => 2
  | .loop => 1
  | .popped _ => 4
  | .counted _ => 3
  | .found => 2
  | .finished => 0
  | .failed _ => 0

/-- A bound on the number of atomic actions the workers of a pool still perform. -/
def Pool.potential (p : Pool) : Nat :=
  4 * p.articleQueue.queue_.length + tally Pc.rank p.workers

/-- The schedule that lets workers `0, ..., workers - 1` act in turn, `rounds` times. -/
def roundRobin (workers : Nat) : Nat → List Nat
  | 0 => []
  | rounds + 1 => List.range workers ++ roundRobin workers rounds

/-- The invariant of a pool that was given `n` identifiers. -/
def Pool.Inv (n : Nat) (p : Pool) : Prop :=
  p.articleQueue.finished_ = true ∧
  p.totalArticles + (tally Pc.uncounted p.workers : Int) + (p.articleQueue.queue_.length : Int)
    = (n : Int) ∧
  0 ≤ p.availableArticles ∧
  p.availableArticles + (tally Pc.unsettled p.workers : Int) ≤ p.totalArticles ∧
  ((∃ w ∈ p.workers, w.pc = Pc.finished) → p.articleQueue.queue_ = [])

/-- The invariant of a pool whose workers never fail and whose server answers
the check of every identifier `x` with `answer x`; `ids` are the identifiers given. -/
def Pool.InvAnswer (answer : CppString → Bool) (ids : List CppString) (p : Pool) : Prop :=
  (∀ w ∈ p.workers, ∀ what, w.pc ≠ Pc.failed what) ∧
  p.availableArticles + (tally (Pc.owed answer) p.workers : Int)
      + ((p.articleQueue.queue_.countP answer : Nat) : Int)
    = ((ids.countP answer : Nat) : Int)

/-- The value of an `int` that has been incremented from 0 as many times as `x` tells:
the integer `x` reduced to 32 bits, two-complement. -/
def wrap32 (x : Int) : Int := (x + 2 ^ 31) % 2 ^ 32 - 2 ^ 31

/-- The invariant of `totalArticles` in a pool that was given `n` identifiers, without
a bound on `n`: the counter has been incremented once for every identifier that is
neither in the queue nor held uncounted by a worker. -/
def Pool.InvCount (n : Nat) (p : Pool) : Prop :=
  p.articleQueue.finished_ = true ∧
  (∃ k : Nat, p.totalArticles = wrap32 k ∧
    k + tally Pc.uncounted p.workers + p.articleQueue.queue_.length = n) ∧
  ((∃ w ∈ p.workers, w.pc = Pc.finished) → p.articleQueue.queue_ = [])

/-- The invariant of `availableArticles`, without a bound on the number of
identifiers, in a pool whose workers never fail and whose server answers the check
of every identifier `x` with `answer x`. -/
def Pool.InvFound (answer : CppString → Bool) (ids : List CppString) (p : Pool) : Prop :=
  (∀ w ∈ p.workers, ∀ what, w.pc ≠ Pc.failed what) ∧
  ∃ k : Nat, p.availableArticles = wrap32 k ∧
    k + tally (Pc.owed answer) p.workers + p.articleQueue.queue_.countP answer
      = ids.countP answer

/-- A server that accepts every connection, greets, and answers `STAT` with 223
for the identifiers `a` and `b` and with 430 for every other identifier. -/
def statServer (a b : CppString) : Remote :=
  lineServer (fun written =>
    match written.getLast? with
    | none => "200 server ready".toList
    | some cmd =>
      if cmd = "STAT <".toList ++ a ++ ">".toList ++ "\r\n".toList
          ∨ cmd = "STAT <".toList ++ b ++ ">".toList ++ "\r\n".toList then
        "223 0 article exists".toList
      else "430 No such article".toList)

/-- A manifest with one `file` entry whose segments have the given texts. -/
def manifestOf (segments : List String) : xml_node :=
  some (XmlNode.elem "nzb"
    [XmlNode.elem "file"
      [XmlNode.elem "segments"
        (segments.map (fun v => XmlNode.elem "segment" [XmlNode.text v]))]], [])

/-- A configuration without credentials, for `connections` connections. -/
def plainConfig (connections : Int) : ServerConfig where
  server := "news.example.org".toList
  port := 119
  ssl := false
  username := []
  password := []
  connections := connections

/-- C1: when the exchange of `STAT <id>` yields the response line `resp`,
`checkNZBExists` throws if `resp` has fewer than three characters, and otherwise
returns whether the first three characters are `223`. -/
theorem checkNZBExists_of_response (r : Remote) (c : NNTPClient) (messageID resp : CppString)
    (h : (c.sendCommand r ("STAT <".toList ++ messageID ++ ">".toList)).1 = .ok resp) :
    (resp.length < 3 →
      (c.checkNZBExists r messageID).1
        = .error ("Invalid response for STAT command: ".toList ++ resp)) ∧
    (3 ≤ resp.length →
      ((c.checkNZBExists r messageID).1 = .ok true ↔ resp.take 3 = "223".toList) ∧
      ((c.checkNZBExists r messageID).1 = .ok false ↔ resp.take 3 ≠ "223".toList)) := by
  unfold NNTPClient.checkNZBExists
  rcases hs : c.sendCommand r ("STAT <".toList ++ messageID ++ ">".toList) with ⟨res, c1⟩
  rw [hs] at h
  simp only at h
  subst h
  constructor
  · intro hlt
    simp [hlt]
  · intro hge
    have : ¬ resp.length < 3 := by omega
    simp [this]

/-- C1 at the responses `223 0 <id> article exists` (true) and
`430 No such article` (false). -/
theorem checkNZBExists_of_response_witness :
    ((NNTPClient.mk false []).checkNZBExists
        (lineServer (fun _ => "223 0 <id> article exists".toList)) "id".toList).1
      = .ok true ∧
    ((NNTPClient.mk false []).checkNZBExists
        (lineServer (fun _ => "430 No such article".toList)) "id".toList).1
      = .ok false :=
  ⟨((checkNZBExists_of_response (lineServer (fun _ => "223 0 <id> article exists".toList))
      (NNTPClient.mk false []) "id".toList "223 0 <id> article exists".toList (by rfl)).2
      (by decide)).1.2 (by decide),
   ((checkNZBExists_of_response (lineServer (fun _ => "430 No such article".toList))
      (NNTPClient.mk false []) "id".toList "430 No such article".toList (by rfl)).2
      (by decide)).2.2 (by decide)⟩

theorem sendCommand_written (r : Remote) (c c1 : NNTPClient) (command resp : CppString)
    (h : c.sendCommand r command = (.ok resp, c1)) :
    c1.written = c.written ++ [command ++ "\r\n".toList] := by
  simp only [NNTPClient.sendCommand] at h
  cases hw : r.write c.written (command ++ "\r\n".toList) with
  | some what => rw [hw] at h; simp at h
  | none =>
    rw [hw] at h
    simp only [Prod.mk.injEq] at h
    rw [← h.2]

/-- C2: when the exchange of `AUTHINFO USER` yields the response `r1`: if `r1` does
not start with `381`, `login` throws `AUTHINFO USER failed: r1` and the only
command written is `AUTHINFO USER`; if it does and the exchange of
`AUTHINFO PASS` yields `r2`, `login` returns exactly when `r2` starts with `281`
and otherwise throws `AUTHINFO PASS failed: r2`. -/
theorem login_of_responses (r : Remote) (c c1 : NNTPClient)
    (username password r1 : CppString)
    (h1 : c.sendCommand r ("AUTHINFO USER ".toList ++ username) = (.ok r1, c1)) :
    (r1.take 3 ≠ "381".toList →
      c.login r username password = (.error ("AUTHINFO USER failed: ".toList ++ r1), c1) ∧
      c1.written = c.written ++ ["AUTHINFO USER ".toList ++ username ++ "\r\n".toList]) ∧
    (r1.take 3 = "381".toList →
      ∀ (r2 : CppString) (c2 : NNTPClient),
        c1.sendCommand r ("AUTHINFO PASS ".toList ++ password) = (.ok r2, c2) →
        (c.login r username password = (.ok (), c2) ↔ r2.take 3 = "281".toList) ∧
        (r2.take 3 ≠ "281".toList →
          c.login r username password
            = (.error ("AUTHINFO PASS failed: ".toList ++ r2), c2))) := by
  constructor
  · intro hne
    refine ⟨?_, sendCommand_written r c c1 _ r1 h1⟩
    simp only [NNTPClient.login, h1]
    rw [if_pos hne]
  · intro heq r2 c2 h2
    simp only [NNTPClient.login, h1, h2]
    rw [if_neg (not_not.mpr heq)]
    by_cases h281 : r2.take 3 = "281".toList
    · rw [if_neg (not_not.mpr h281)]
      exact ⟨⟨fun _ => h281, fun _ => rfl⟩, fun hn => absurd h281 hn⟩
    · rw [if_pos h281]
      refine ⟨⟨fun hc => ?_, fun hc => absurd hc h281⟩, fun _ => rfl⟩
      simp at hc

/-- C2 at a server that asks for the password (`381`) and then rejects it (`481`). -/
theorem login_of_responses_witness :
    (NNTPClient.mk false []).login
        (lineServer (fun written =>
          if written.length = 1 then "381 PASS required".toList
          else "481 Authentication failed".toList))
        "user".toList "wrong".toList
      = (.error "AUTHINFO PASS failed: 481 Authentication failed".toList,
          NNTPClient.mk false ["AUTHINFO USER user\r\n".toList, "AUTHINFO PASS wrong\r\n".toList]) :=
  ((login_of_responses
      (lineServer (fun written =>
          if written.length = 1 then "381 PASS required".toList
          else "481 Authentication failed".toList))
      (NNTPClient.mk false []) (NNTPClient.mk false ["AUTHINFO USER user\r\n".toList])
      "user".toList "wrong".toList "381 PASS required".toList (by rfl)).2 (by decide)
      "481 Authentication failed".toList
      (NNTPClient.mk false ["AUTHINFO USER user\r\n".toList, "AUTHINFO PASS wrong\r\n".toList])
      (by rfl)).2 (by decide)

/-- C9, as stated, fails: a greeting that is not a 2xx line, and an end of
stream before any line, both let `connect` return normally. -/
theorem connect_accepts_any_greeting :
    ((NNTPClient.mk false []).connect
        (lineServer (fun _ => "502 access denied".toList)) "news.example.org".toList 119).1
      = .ok () ∧
    ((NNTPClient.mk false []).connect
        { establish := fun _ _ => none, write := fun _ _ => none, read := fun _ => .eof [] }
        "news.example.org".toList 119).1
      = .ok () := ⟨rfl, rfl⟩

/-- C9 (amended): `connect` returns normally exactly when establishing the
transport does not throw and the read of the greeting does not fail with an error
other than end of stream, whatever was read; otherwise it throws
`Connection error: ` followed by the text of the failure. -/
theorem connect_ok_iff (r : Remote) (c : NNTPClient) (server : CppString) (port : Int) :
    ((c.connect r server port).1 = .ok () ↔
      r.establish server port = none ∧ ∀ what, r.read c.written ≠ .failure what) ∧
    (∀ what, r.establish server port = some what →
      (c.connect r server port).1 = .error ("Connection error: ".toList ++ what)) ∧
    (r.establish server port = none → ∀ what, r.read c.written = .failure what →
      (c.connect r server port).1
        = .error ("Connection error: ".toList ++ ("Failed to read response: ".toList ++ what))) := by
  unfold NNTPClient.connect NNTPClient.readResponse
  cases he : r.establish server port with
  | some what => simp
  | none =>
    cases hr : r.read c.written with
    | delimited buffer => simp
    | eof buffer => simp
    | failure what => simp

/-- C9 (amended) at a peer that resets the connection before the greeting. -/
theorem connect_ok_iff_witness :
    ((NNTPClient.mk false []).connect
        { establish := fun _ _ => none, write := fun _ _ => none,
          read := fun _ => .failure "Connection reset by peer".toList }
        "news.example.org".toList 119).1
      = .error "Connection error: Failed to read response: Connection reset by peer".toList :=
  (connect_ok_iff
      { establish := fun _ _ => none, write := fun _ _ => none,
        read := fun _ => .failure "Connection reset by peer".toList }
      (NNTPClient.mk false []) "news.example.org".toList 119).2.2 rfl
    "Connection reset by peer".toList rfl

/-! ## Theorems: ThreadSafeQueue -/

theorem foldl_step_fifo (ops : List QueueOp) (s : QueueRun) :
    (ops.foldl QueueRun.step s).delivered.map Prod.snd ++ (ops.foldl QueueRun.step s).queue.queue_
      = (s.delivered.map Prod.snd ++ s.queue.queue_) ++ pushedIds ops := by
  induction ops generalizing s with
  | nil => simp [pushedIds]
  | cons op ops ih =>
    rw [List.foldl_cons, ih]
    cases op with
    | push articleId =>
      simp [QueueRun.step, ThreadSafeQueue.push, pushedIds]
    | set_finished =>
      simp [QueueRun.step, ThreadSafeQueue.set_finished, pushedIds]
    | try_pop consumer =>
      rcases s with ⟨⟨q, f⟩, d⟩
      cases q with
      | nil => cases f <;> simp [QueueRun.step, ThreadSafeQueue.try_pop, pushedIds]
      | cons a rest => simp [QueueRun.step, ThreadSafeQueue.try_pop, pushedIds]

/-- C3: after any interleaving of `push`, `set_finished` and `try_pop` critical
sections on a new queue, the identifiers returned by `try_pop` followed by the
identifiers still queued are the identifiers pushed, in the order of the pushes;
so the multisets agree, and once the queue is empty every identifier has been
returned as often as it was pushed. -/
theorem queue_no_loss_no_duplication (ops : List QueueOp) :
    (QueueRun.exec ops).delivered.map Prod.snd ++ (QueueRun.exec ops).queue.queue_
      = pushedIds ops ∧
    (Multiset.ofList ((QueueRun.exec ops).delivered.map Prod.snd)
        + Multiset.ofList (QueueRun.exec ops).queue.queue_
      = Multiset.ofList (pushedIds ops)) ∧
    ((QueueRun.exec ops).queue.queue_ = [] →
      ∀ articleId : CppString,
        ((QueueRun.exec ops).delivered.filter (fun d => d.2 = articleId)).length
          = (pushedIds ops).count articleId) := by
  have h := foldl_step_fifo ops { queue := ThreadSafeQueue.new, delivered := [] }
  simp only [ThreadSafeQueue.new, List.map_nil, List.nil_append] at h
  change (QueueRun.exec ops).delivered.map Prod.snd ++ (QueueRun.exec ops).queue.queue_
      = pushedIds ops at h
  refine ⟨h, ?_, ?_⟩
  · rw [← h]; simp
  · intro hq articleId
    rw [hq, List.append_nil] at h
    rw [← h, List.count_eq_countP, List.countP_map, List.countP_eq_length_filter]
    congr 1
    apply List.filter_congr
    intro x _
    by_cases hx : x.2 = articleId
    · simp [hx]
    · have hx2 : ¬ articleId = x.2 := fun e => hx e.symm
      simp [hx, hx2]

/-- C3 at two pushes of the same identifier and one of another, drained by two
consumers: the identifier pushed twice has been returned twice. -/
theorem queue_no_loss_no_duplication_witness :
    ((QueueRun.exec [.push "a".toList, .try_pop 0, .push "b".toList, .push "a".toList,
        .set_finished, .try_pop 1, .try_pop 0, .try_pop 1]).delivered.filter
      (fun d => d.2 = "a".toList)).length = 2 :=
  (queue_no_loss_no_duplication [.push "a".toList, .try_pop 0, .push "b".toList,
      .push "a".toList, .set_finished, .try_pop 1, .try_pop 0, .try_pop 1]).2.2
    (by rfl) "a".toList

/-! ## Theorems: the identifiers enqueued -/

theorem firstNamed_bound (name : CppString) (l : List XmlNode) :
    (firstNamed name l).bound ≤ l.length := by
  induction l with
  | nil => simp [firstNamed, xml_node.bound]
  | cons n rest ih =>
    by_cases hn : n.name = name
    · simp [firstNamed, hn, xml_node.bound]
    · simp only [firstNamed, hn, if_false, List.length_cons]
      omega

theorem foldl_filter_firstNamed {σ : Type} (name : CppString) (g : σ → XmlNode → σ)
    (l : List XmlNode) (s : σ) :
    (l.filter (fun x => x.name = name)).foldl g s
      = match firstNamed name l with
        | none => s
        | some (n, following) => (following.filter (fun x => x.name = name)).foldl g (g s n) := by
  induction l with
  | nil => simp [firstNamed]
  | cons n rest ih =>
    by_cases hn : n.name = name
    · simp [firstNamed, hn, List.filter_cons]
    · simp only [firstNamed, hn, if_false]
      rw [← ih]
      simp [List.filter_cons, hn]

theorem forSiblings_eq_foldl {σ : Type} (name : CppString) (body : σ → xml_node → σ)
    (g : σ → XmlNode → σ) (hb : ∀ s n following, body s (some (n, following)) = g s n) :
    ∀ (fuel : Nat) (h : xml_node) (s : σ), h.bound ≤ fuel →
      forSiblings name body fuel h s
        = match h with
          | none => s
          | some (n, following) =>
            (following.filter (fun x => x.name = name)).foldl g (g s n) := by
  intro fuel
  induction fuel with
  | zero =>
    intro h s hf
    cases h with
    | none => simp [forSiblings]
    | some nf => simp [xml_node.bound] at hf
  | succ fuel ih =>
    intro h s hf
    cases h with
    | none => simp [forSiblings]
    | some nf =>
      obtain ⟨n, following⟩ := nf
      simp only [forSiblings, xml_node.next_sibling]
      have hb2 : (firstNamed name following).bound ≤ fuel := by
        have := firstNamed_bound name following
        simp only [xml_node.bound] at hf
        omega
      rw [ih _ _ hb2, hb, foldl_filter_firstNamed]

theorem forSiblings_firstNamed {σ : Type} (name : CppString) (body : σ → xml_node → σ)
    (g : σ → XmlNode → σ) (hb : ∀ s n following, body s (some (n, following)) = g s n)
    (l : List XmlNode) (s : σ) :
    forSiblings name body (firstNamed name l).bound (firstNamed name l) s
      = (l.filter (fun x => x.name = name)).foldl g s := by
  rw [forSiblings_eq_foldl name body g hb _ _ _ (le_refl _), foldl_filter_firstNamed]

theorem firstNamed_find (name : CppString) (l : List XmlNode) :
    (firstNamed name l).map Prod.fst = l.find? (fun g => g.name = name) := by
  induction l with
  | nil => simp [firstNamed]
  | cons n rest ih =>
    by_cases hn : n.name = name
    · simp [firstNamed, hn, List.find?_cons]
    · simp [firstNamed, hn, List.find?_cons, ih]

theorem foldl_push_queue (f : XmlNode → CppString) (l : List XmlNode) (q : ThreadSafeQueue) :
    (l.foldl (fun q n => if f n ≠ [] then q.push (f n) else q) q).queue_
        = q.queue_ ++ (l.map f).filter (fun v => v ≠ []) ∧
    (l.foldl (fun q n => if f n ≠ [] then q.push (f n) else q) q).finished_ = q.finished_ := by
  induction l generalizing q with
  | nil => simp
  | cons n rest ih =>
    simp only [List.foldl_cons, List.map_cons]
    by_cases hn : f n = []
    · rw [if_neg (not_not.mpr hn), (ih q).1, (ih q).2]
      simp [List.filter_cons, hn]
    · rw [if_pos hn, (ih _).1, (ih _).2]
      simp [ThreadSafeQueue.push, List.filter_cons, hn]

theorem enqueueFile_eq (q : ThreadSafeQueue) (f : XmlNode) (following : List XmlNode) :
    (enqueueFile q (some (f, following))).queue_
        = q.queue_ ++ (fileSegmentValues f).filter (fun v => v ≠ []) ∧
    (enqueueFile q (some (f, following))).finished_ = q.finished_ := by
  have hfind := firstNamed_find "segments".toList f.children
  unfold enqueueFile fileSegmentValues
  simp only [xml_node.child]
  cases hs : firstNamed "segments".toList f.children with
  | none =>
    rw [hs] at hfind
    simp only [Option.map_none'] at hfind
    rw [← hfind]
    simp [forSiblings, xml_node.bound]
  | some gf =>
    obtain ⟨g, gfollowing⟩ := gf
    rw [hs] at hfind
    simp only [Option.map_some'] at hfind
    rw [← hfind]
    simp only []
    rw [forSiblings_firstNamed "segment".toList enqueueSegment
      (fun q n => if firstText n.children ≠ [] then q.push (firstText n.children) else q)
      (fun s n fl => by simp [enqueueSegment, xml_node.child_value])]
    exact foldl_push_queue (fun n => firstText n.children) _ q

theorem foldl_enqueueFile (l : List XmlNode) (q : ThreadSafeQueue) :
    (l.foldl (fun q f => enqueueFile q (some (f, []))) q).queue_
        = q.queue_ ++ (l.flatMap fileSegmentValues).filter (fun v => v ≠ []) ∧
    (l.foldl (fun q f => enqueueFile q (some (f, []))) q).finished_ = q.finished_ := by
  induction l generalizing q with
  | nil => simp
  | cons f rest ih =>
    simp only [List.foldl_cons, List.flatMap_cons, List.filter_append]
    rw [(ih _).1, (ih _).2, (enqueueFile_eq q f []).1, (enqueueFile_eq q f []).2]
    simp

theorem enqueueFile_following (q : ThreadSafeQueue) (f : XmlNode) (following : List XmlNode) :
    enqueueFile q (some (f, following)) = enqueueFile q (some (f, [])) := by
  simp [enqueueFile, xml_node.child]

theorem enqueueArticles_eq (rootNode : xml_node) (q : ThreadSafeQueue) :
    (enqueueArticles rootNode q).queue_
        = q.queue_ ++ (segmentValues rootNode).filter (fun v => v ≠ []) ∧
    (enqueueArticles rootNode q).finished_ = q.finished_ := by
  cases rootNode with
  | none => simp [enqueueArticles, xml_node.child, forSiblings, xml_node.bound, segmentValues]
  | some rf =>
    obtain ⟨root, following⟩ := rf
    unfold enqueueArticles
    simp only [xml_node.child, segmentValues]
    rw [forSiblings_firstNamed "file".toList enqueueFile
      (fun q f => enqueueFile q (some (f, [])))
      (fun s n fl => enqueueFile_following s n fl)]
    exact foldl_enqueueFile _ q

/-- C8 (amended): the queue filled by `processServer` holds what it held before
followed by the segment values of the manifest in document order (files in
order, segments in order within each file) from which exactly the empty values
are removed; so these are the identifiers in the queue when the workers start. -/
theorem enqueueArticles_queue (rootNode : xml_node) (q : ThreadSafeQueue) :
    (enqueueArticles rootNode q).queue_
        = q.queue_ ++ (segmentValues rootNode).filter (fun v => v ≠ []) ∧
    (enqueueArticles rootNode q).finished_ = q.finished_ ∧
    (∀ cfg : ServerConfig,
      (Pool.init cfg rootNode).articleQueue.queue_
        = (segmentValues rootNode).filter (fun v => v ≠ [])) := by
  refine ⟨(enqueueArticles_eq rootNode q).1, (enqueueArticles_eq rootNode q).2, fun cfg => ?_⟩
  simp only [Pool.init, ThreadSafeQueue.set_finished]
  rw [(enqueueArticles_eq rootNode ThreadSafeQueue.new).1]
  simp [ThreadSafeQueue.new]

/-- C8, as stated, fails: a segment whose text is one space (a CDATA section)
is enqueued, although its value is white space only. -/
theorem enqueueArticles_keeps_whitespace :
    (enqueueArticles
        (some (XmlNode.elem "nzb" [XmlNode.elem "file" [XmlNode.elem "segments"
          [XmlNode.elem "segment" [XmlNode.mk .cdata [] (some [' ']) []]]]], []))
        ThreadSafeQueue.new).queue_ = [[' ']] ∧
    whitespaceOnly [' '] = true ∧
    (segmentValues
        (some (XmlNode.elem "nzb" [XmlNode.elem "file" [XmlNode.elem "segments"
          [XmlNode.elem "segment" [XmlNode.mk .cdata [] (some [' ']) []]]]], []))).filter
      (fun v => !whitespaceOnly v) = [] := by
  refine ⟨by rfl, by rfl, by rfl⟩

/-! ## Theorems: the availability written by writeReport -/

theorem bitsAux_zero (fuel : Nat) : bitsAux fuel 0 = 0 := by
  cases fuel <;> simp [bitsAux]

theorem bitsAux_spec (fuel : Nat) : ∀ n : Nat, n ≤ fuel → 0 < n →
    0 < bitsAux fuel n ∧ 2 ^ (bitsAux fuel n - 1) ≤ n ∧ n < 2 ^ bitsAux fuel n := by
  induction fuel with
  | zero => intro n h1 h2; omega
  | succ fuel ih =>
    intro n h1 h2
    have hn : n ≠ 0 := by omega
    simp only [bitsAux, hn, if_false]
    by_cases h : n / 2 = 0
    · have h1n : n = 1 := by omega
      subst h1n
      simp [bitsAux_zero]
    · obtain ⟨hb, hlo, hhi⟩ := ih (n / 2) (by omega) (by omega)
      refine ⟨by omega, ?_, ?_⟩
      · have e : bitsAux fuel (n / 2) + 1 - 1 = (bitsAux fuel (n / 2) - 1) + 1 := by omega
        rw [e, pow_succ]
        omega
      · rw [pow_succ]
        omega

theorem bits_spec (n : Nat) (h : 0 < n) :
    0 < bits n ∧ 2 ^ (bits n - 1) ≤ n ∧ n < 2 ^ bits n :=
  bitsAux_spec n n (le_refl _) h

theorem bits_le (n k : Nat) (h : 0 < n) (hk : n < 2 ^ k) : bits n ≤ k := by
  obtain ⟨hb, hlo, _⟩ := bits_spec n h
  by_contra hc
  have : 2 ^ k ≤ 2 ^ (bits n - 1) := Nat.pow_le_pow_right (by norm_num) (by omega)
  omega

theorem bits_ge (n k : Nat) (hk : 2 ^ k ≤ n) : k + 1 ≤ bits n := by
  have hn : 0 < n := lt_of_lt_of_le (by positivity) hk
  obtain ⟨hb, _, hhi⟩ := bits_spec n hn
  by_contra hc
  have : 2 ^ bits n ≤ 2 ^ k := Nat.pow_le_pow_right (by norm_num) (by omega)
  omega

theorem roundNE_spec (p q : Nat) (hq : 0 < q) :
    2 * (roundNE p q * q) ≤ 2 * p + q ∧ 2 * p ≤ 2 * (roundNE p q * q) + q := by
  have hdm := Nat.div_add_mod p q
  have hr := Nat.mod_lt p hq
  unfold roundNE
  have e1 : (p / q + 1) * q = q * (p / q) + q := by ring
  have e2 : (p / q) * q = q * (p / q) := by ring
  split
  · rw [e2]; omega
  · split
    · rw [e1]; omega
    · split
      · rw [e2]; omega
      · rw [e1]; omega

theorem scale2_spec (p q : Nat) (e : Int) (hq : 0 < q) :
    0 < (scale2 p q e).2 ∧
    ((scale2 p q e).1 : ℚ) / ((scale2 p q e).2 : ℚ) = (p : ℚ) / (q : ℚ) / (2 : ℚ) ^ e := by
  have hq2 : (q : ℚ) ≠ 0 := by exact_mod_cast hq.ne'
  unfold scale2
  split
  · rename_i h
    refine ⟨by positivity, ?_⟩
    have he : e = (e.toNat : Int) := (Int.toNat_of_nonneg h).symm
    simp only []
    rw [he]
    simp only [Int.toNat_ofNat, zpow_natCast]
    push_cast
    field_simp
  · rename_i h
    refine ⟨hq, ?_⟩
    have he : e = -((-e).toNat : Int) := by
      rw [Int.toNat_of_nonneg (by omega)]
      omega
    simp only []
    rw [he]
    simp only [neg_neg, Int.toNat_ofNat, zpow_neg, zpow_natCast]
    push_cast
    field_simp

theorem cast_bits_bounds (n : Nat) (h : 0 < n) :
    (2 : ℚ) ^ (bits n : Int) / 2 ≤ (n : ℚ) ∧ (n : ℚ) < (2 : ℚ) ^ (bits n : Int) := by
  obtain ⟨hb, hlo, hhi⟩ := bits_spec n h
  have e : bits n = (bits n - 1) + 1 := by omega
  have hlo2 : ((2 ^ (bits n - 1) : Nat) : ℚ) ≤ (n : ℚ) := by exact_mod_cast hlo
  have hhi2 : (n : ℚ) < ((2 ^ bits n : Nat) : ℚ) := by exact_mod_cast hhi
  rw [zpow_natCast]
  push_cast at hlo2 hhi2
  refine ⟨?_, hhi2⟩
  rw [e, pow_succ]
  simpa using hlo2

/-- The rounding of `p / q` in the normal range: with `e0` the exponent of the last
place, the significand is the integer nearest to `p / q / 2^e0`, renormalised
when it reaches `2^53`. -/
theorem round_core (neg : Bool) (p q : Nat) (hp : 0 < p) (hq : 0 < q)
    (hlo : -1000 ≤ (bits p : Int) - (bits q : Int))
    (hhi : (bits p : Int) - (bits q : Int) ≤ 1000) :
    ∃ (m0 : Nat) (e0 : Int),
      (bits p : Int) - (bits q : Int) - 53 ≤ e0 ∧ e0 ≤ (bits p : Int) - (bits q : Int) - 52 ∧
      (2 : ℚ) ^ 52 * (2 : ℚ) ^ e0 ≤ (p : ℚ) / (q : ℚ) ∧
      (p : ℚ) / (q : ℚ) < (2 : ℚ) ^ 53 * (2 : ℚ) ^ e0 ∧
      |(m0 : ℚ) - (p : ℚ) / (q : ℚ) / (2 : ℚ) ^ e0| ≤ 1 / 2 ∧
      2 ^ 52 ≤ m0 ∧ m0 ≤ 2 ^ 53 ∧
      Double.round neg p q
        = .finite neg (if m0 = 2 ^ 53 then 2 ^ 52 else m0) (if m0 = 2 ^ 53 then e0 + 1 else e0) := by
  obtain ⟨hp1, hp2⟩ := cast_bits_bounds p hp
  obtain ⟨hq1, hq2⟩ := cast_bits_bounds q hq
  have hpQ : (0 : ℚ) < p := by exact_mod_cast hp
  have hqQ : (0 : ℚ) < q := by exact_mod_cast hq
  set d : Int := (bits p : Int) - (bits q : Int) with hd
  set x : ℚ := (p : ℚ) / (q : ℚ) with hx
  have hxpos : 0 < x := div_pos hpQ hqQ
  have hBp : (0 : ℚ) < (2 : ℚ) ^ (bits p : Int) := by positivity
  have hBq : (0 : ℚ) < (2 : ℚ) ^ (bits q : Int) := by positivity
  have hA : (2 : ℚ) ^ d = (2 : ℚ) ^ (bits p : Int) / (2 : ℚ) ^ (bits q : Int) := by
    rw [hd, zpow_sub₀ (by norm_num : (2 : ℚ) ≠ 0)]
  have hApos : (0 : ℚ) < (2 : ℚ) ^ d := by positivity
  -- x lies strictly between A / 2 and 2 * A
  have hx_hi : x < 2 * (2 : ℚ) ^ d := by
    rw [hx, hA, div_lt_iff₀ hqQ]
    have : 2 * ((2 : ℚ) ^ (bits p : Int) / (2 : ℚ) ^ (bits q : Int)) * q
        = (2 : ℚ) ^ (bits p : Int) * (2 * q / (2 : ℚ) ^ (bits q : Int)) := by
      field_simp
      ring
    rw [this]
    have h1 : 1 ≤ 2 * (q : ℚ) / (2 : ℚ) ^ (bits q : Int) := by
      rw [le_div_iff₀ hBq]
      linarith
    nlinarith
  have hx_lo : (2 : ℚ) ^ d / 2 < x := by
    rw [hx, hA, lt_div_iff₀ hqQ]
    have : (2 : ℚ) ^ (bits p : Int) / (2 : ℚ) ^ (bits q : Int) / 2 * q
        = (2 : ℚ) ^ (bits p : Int) / 2 * (q / (2 : ℚ) ^ (bits q : Int)) := by
      field_simp
      ring
    rw [this]
    have h1 : (q : ℚ) / (2 : ℚ) ^ (bits q : Int) < 1 := by
      rw [div_lt_iff₀ hBq]
      linarith
    nlinarith
  -- the comparison that selects the exponent
  obtain ⟨hsd_pos, hsd⟩ := scale2_spec p q d hq
  have hc : (scale2 p q d).1 < (scale2 p q d).2 ↔ x < (2 : ℚ) ^ d := by
    have hsdQ : (0 : ℚ) < ((scale2 p q d).2 : ℚ) := by exact_mod_cast hsd_pos
    rw [← Nat.cast_lt (α := ℚ), ← div_lt_one hsdQ, hsd, div_lt_one hApos]
  set e0 : Int := if (scale2 p q d).1 < (scale2 p q d).2 then d - 53 else d - 52 with he0
  have he0_range : d - 53 ≤ e0 ∧ e0 ≤ d - 52 := by
    rw [he0]
    split <;> omega
  have hE0pos : (0 : ℚ) < (2 : ℚ) ^ e0 := by positivity
  have hy : (2 : ℚ) ^ 52 * (2 : ℚ) ^ e0 ≤ x ∧ x < (2 : ℚ) ^ 53 * (2 : ℚ) ^ e0 := by
    by_cases hcc : (scale2 p q d).1 < (scale2 p q d).2
    · have hxA := hc.mp hcc
      have : (2 : ℚ) ^ e0 = (2 : ℚ) ^ d / 2 ^ 53 := by
        rw [he0, if_pos hcc, zpow_sub₀ (by norm_num : (2 : ℚ) ≠ 0)]
        norm_num
      rw [this]
      constructor
      · have : (2 : ℚ) ^ 52 * ((2 : ℚ) ^ d / 2 ^ 53) = (2 : ℚ) ^ d / 2 := by
          field_simp
          ring
        rw [this]
        exact le_of_lt hx_lo
      · have : (2 : ℚ) ^ 53 * ((2 : ℚ) ^ d / 2 ^ 53) = (2 : ℚ) ^ d := by
          field_simp
        rw [this]
        exact hxA
    · have hxA : (2 : ℚ) ^ d ≤ x := not_lt.mp (fun h => hcc (hc.mpr h))
      have : (2 : ℚ) ^ e0 = (2 : ℚ) ^ d / 2 ^ 52 := by
        rw [he0, if_neg hcc, zpow_sub₀ (by norm_num : (2 : ℚ) ≠ 0)]
        norm_num
      rw [this]
      constructor
      · have : (2 : ℚ) ^ 52 * ((2 : ℚ) ^ d / 2 ^ 52) = (2 : ℚ) ^ d := by
          field_simp
        rw [this]
        exact hxA
      · have : (2 : ℚ) ^ 53 * ((2 : ℚ) ^ d / 2 ^ 52) = 2 * (2 : ℚ) ^ d := by
          field_simp
          ring
        rw [this]
        exact hx_hi
  have hmax : max e0 (-1074) = e0 := by
    apply max_eq_left
    omega
  -- the rounded significand
  obtain ⟨hse_pos, hse⟩ := scale2_spec p q e0 hq
  set P := (scale2 p q e0).1 with hP
  set Q := (scale2 p q e0).2 with hQ
  have hQQ : (0 : ℚ) < (Q : ℚ) := by exact_mod_cast hse_pos
  obtain ⟨hr1, hr2⟩ := roundNE_spec P Q hse_pos
  set m := roundNE P Q with hm
  have hPQ : (P : ℚ) = x * (Q : ℚ) / (2 : ℚ) ^ e0 := by
    have := hse
    rw [div_eq_iff hQQ.ne'] at this
    rw [this, hx]
    field_simp
  have hr1Q : 2 * ((m : ℚ) * Q) ≤ 2 * P + Q := by exact_mod_cast hr1
  have hr2Q : 2 * (P : ℚ) ≤ 2 * ((m : ℚ) * Q) + Q := by exact_mod_cast hr2
  -- |m - y| ≤ 1/2 with y = x / 2^e0
  have hmy1 : (m : ℚ) ≤ x / (2 : ℚ) ^ e0 + 1 / 2 := by
    have : 2 * ((m : ℚ) * Q) ≤ (2 * (x / (2 : ℚ) ^ e0) + 1) * Q := by
      rw [hPQ] at hr1Q
      have e : (2 * (x / (2 : ℚ) ^ e0) + 1) * Q = 2 * (x * Q / (2 : ℚ) ^ e0) + Q := by
        field_simp
        ring
      rw [e]
      exact hr1Q
    have := le_of_mul_le_mul_right (by linarith : 2 * (m : ℚ) * Q ≤ (2 * (x / (2 : ℚ) ^ e0) + 1) * Q) hQQ
    linarith
  have hmy2 : x / (2 : ℚ) ^ e0 - 1 / 2 ≤ (m : ℚ) := by
    have : (2 * (x / (2 : ℚ) ^ e0) - 1) * Q ≤ 2 * (m : ℚ) * Q := by
      rw [hPQ] at hr2Q
      have e : (2 * (x / (2 : ℚ) ^ e0) - 1) * Q = 2 * (x * Q / (2 : ℚ) ^ e0) - Q := by
        field_simp
        ring
      rw [e]
      linarith
    have := le_of_mul_le_mul_right this hQQ
    linarith
  have hy1 : (2 : ℚ) ^ 52 ≤ x / (2 : ℚ) ^ e0 := by
    rw [le_div_iff₀ hE0pos]
    exact hy.1
  have hy2 : x / (2 : ℚ) ^ e0 < (2 : ℚ) ^ 53 := by
    rw [div_lt_iff₀ hE0pos]
    exact hy.2
  have hm_lo : 2 ^ 52 ≤ m := by
    by_contra hcon
    have h : m + 1 ≤ 2 ^ 52 := by omega
    have hQ2 : (m : ℚ) + 1 ≤ (2 : ℚ) ^ 52 := by exact_mod_cast h
    linarith
  have hm_hi : m ≤ 2 ^ 53 := by
    by_contra hcon
    have h : 2 ^ 53 + 1 ≤ m := by omega
    have hQ2 : (2 : ℚ) ^ 53 + 1 ≤ (m : ℚ) := by exact_mod_cast h
    linarith
  -- unfold the definition
  have hround : Double.round neg p q
      = if 971 < (if m = 2 ^ 53 then e0 + 1 else e0) then Double.inf neg
        else if (if m = 2 ^ 53 then 2 ^ 52 else m) = 0 then Double.finite neg 0 0
        else Double.finite neg (if m = 2 ^ 53 then 2 ^ 52 else m)
          (if m = 2 ^ 53 then e0 + 1 else e0) := by
    unfold Double.round
    rw [if_neg hp.ne']
    simp only [← hd, ← he0, hmax, ← hP, ← hQ, ← hm]
  have h3 : |(m : ℚ) - x / (2 : ℚ) ^ e0| ≤ 1 / 2 := by
    rw [abs_le]
    constructor <;> linarith
  refine ⟨m, e0, he0_range.1, he0_range.2, hy.1, hy.2, h3, hm_lo, hm_hi, ?_⟩
  rw [hround]
  by_cases hm53 : m = 2 ^ 53
  · simp only [hm53, if_true]
    rw [if_neg (by omega), if_neg (by norm_num)]
  · simp only [hm53, if_false]
    rw [if_neg (by omega), if_neg (by omega)]

/-- The result of rounding `p / q` when it is in the normal range: a 53-bit
significand and a relative error of at most `2^-53`. -/
theorem round_spec (neg : Bool) (p q : Nat) (hp : 0 < p) (hq : 0 < q)
    (hlo : -1000 ≤ (bits p : Int) - (bits q : Int))
    (hhi : (bits p : Int) - (bits q : Int) ≤ 1000) :
    ∃ (m : Nat) (e : Int), Double.round neg p q = .finite neg m e ∧
      2 ^ 52 ≤ m ∧ m < 2 ^ 53 ∧
      (bits p : Int) - (bits q : Int) - 53 ≤ e ∧ e ≤ (bits p : Int) - (bits q : Int) - 51 ∧
      |(m : ℚ) * (2 : ℚ) ^ e - (p : ℚ) / (q : ℚ)| ≤ (p : ℚ) / (q : ℚ) / 2 ^ 53 := by
  obtain ⟨m, e0, he1, he2, hy1, hy2, h3, hm_lo, hm_hi, hround⟩ :=
    round_core neg p q hp hq hlo hhi
  set x : ℚ := (p : ℚ) / (q : ℚ) with hx
  have hE0pos : (0 : ℚ) < (2 : ℚ) ^ e0 := by positivity
  have herr : |(m : ℚ) * (2 : ℚ) ^ e0 - x| ≤ x / 2 ^ 53 := by
    have h1 : (m : ℚ) * (2 : ℚ) ^ e0 - x = ((m : ℚ) - x / (2 : ℚ) ^ e0) * (2 : ℚ) ^ e0 := by
      field_simp
    have h2 : (2 : ℚ) ^ e0 / 2 ≤ x / 2 ^ 53 := by
      have e : (2 : ℚ) ^ e0 / 2 = (2 : ℚ) ^ 52 * (2 : ℚ) ^ e0 / 2 ^ 53 := by
        rw [pow_succ (2 : ℚ) 52]
        field_simp
        ring
      rw [e]
      exact div_le_div_of_nonneg_right hy1 (by positivity)
    rw [h1, abs_mul, abs_of_pos hE0pos]
    calc |(m : ℚ) - x / (2 : ℚ) ^ e0| * (2 : ℚ) ^ e0 ≤ 1 / 2 * (2 : ℚ) ^ e0 :=
          mul_le_mul_of_nonneg_right h3 (le_of_lt hE0pos)
      _ = (2 : ℚ) ^ e0 / 2 := by ring
      _ ≤ x / 2 ^ 53 := h2
  rw [hround]
  by_cases hm53 : m = 2 ^ 53
  · simp only [hm53, if_true]
    refine ⟨2 ^ 52, e0 + 1, rfl, le_refl _, by norm_num, by omega, by omega, ?_⟩
    have : ((2 ^ 52 : Nat) : ℚ) * (2 : ℚ) ^ (e0 + 1) = (m : ℚ) * (2 : ℚ) ^ e0 := by
      rw [hm53, zpow_add₀ (by norm_num : (2 : ℚ) ≠ 0)]
      push_cast
      ring
    rw [this]
    exact herr
  · simp only [hm53, if_false]
    exact ⟨m, e0, rfl, hm_lo, by omega, by omega, by omega, herr⟩

theorem scale2_bounds (p q : Nat) (e : Int) (k c : Nat) (hp : 0 < p) (hq : 0 < q)
    (hp2 : p < 2 ^ k) (hq2 : q < 2 ^ k) (hc1 : -(c : Int) ≤ e) (hc2 : e ≤ (c : Int)) :
    0 < (scale2 p q e).1 ∧ (scale2 p q e).1 < 2 ^ (k + c) ∧
    0 < (scale2 p q e).2 ∧ (scale2 p q e).2 < 2 ^ (k + c) := by
  have hpow : ∀ j : Nat, j ≤ c → ∀ n : Nat, 0 < n → n < 2 ^ k → n * 2 ^ j < 2 ^ (k + c) := by
    intro j hj n _ hn
    have h1 : (2 : Nat) ^ j ≤ 2 ^ c := Nat.pow_le_pow_right (by norm_num) hj
    have h2 : (0 : Nat) < 2 ^ j := by positivity
    calc n * 2 ^ j < 2 ^ k * 2 ^ j := Nat.mul_lt_mul_of_pos_right hn h2
      _ ≤ 2 ^ k * 2 ^ c := Nat.mul_le_mul_left _ h1
      _ = 2 ^ (k + c) := (pow_add 2 k c).symm
  have hmono : ∀ n : Nat, n < 2 ^ k → n < 2 ^ (k + c) := by
    intro n hn
    exact lt_of_lt_of_le hn (Nat.pow_le_pow_right (by norm_num) (by omega))
  unfold scale2
  split
  · refine ⟨hp, hmono p hp2, by positivity, hpow e.toNat (by omega) q hq hq2⟩
  · refine ⟨by positivity, hpow (-e).toNat (by omega) p hp hp2, hq, hmono q hq2⟩

theorem bits_diff_bounds (p q k : Nat) (hp : 0 < p) (hq : 0 < q) (hp2 : p < 2 ^ k)
    (hq2 : q < 2 ^ k) (hk : k ≤ 1000) :
    -1000 ≤ (bits p : Int) - (bits q : Int) ∧ (bits p : Int) - (bits q : Int) ≤ 1000 ∧
    -(k : Int) ≤ (bits p : Int) - (bits q : Int) ∧ (bits p : Int) - (bits q : Int) ≤ (k : Int) := by
  have h1 := bits_le p k hp hp2
  have h2 := bits_le q k hq hq2
  have h3 := (bits_spec p hp).1
  have h4 := (bits_spec q hq).1
  omega

/-- A positive integer below `2^53` rounds to itself. -/
theorem round_nat_exact (neg : Bool) (p : Nat) (hp : 0 < p) (hb : p < 2 ^ 53) :
    ∃ (m : Nat) (e : Int), Double.round neg p 1 = .finite neg m e ∧
      2 ^ 52 ≤ m ∧ m < 2 ^ 53 ∧ -53 ≤ e ∧ e ≤ 0 ∧
      (m : ℚ) * (2 : ℚ) ^ e = (p : ℚ) := by
  have hb1 : bits 1 = 1 := by simp [bits, bitsAux]
  have hbp := bits_le p 53 hp hb
  have hbp0 := (bits_spec p hp).1
  obtain ⟨m0, e0, he1, he2, hy1, hy2, h3, hm_lo, hm_hi, hround⟩ :=
    round_core neg p 1 hp (by norm_num) (by rw [hb1]; omega) (by rw [hb1]; omega)
  rw [hb1] at he1 he2
  simp only [Nat.cast_one, div_one] at hy1 hy2 h3
  have he0 : e0 ≤ 0 := by omega
  have hE : (2 : ℚ) ^ e0 = 1 / (2 : ℚ) ^ (-e0).toNat := by
    have : e0 = -((-e0).toNat : Int) := by
      rw [Int.toNat_of_nonneg (by omega)]
      omega
    conv_lhs => rw [this]
    rw [zpow_neg, zpow_natCast]
    simp
  have hK : (p : ℚ) / (2 : ℚ) ^ e0 = ((p * 2 ^ (-e0).toNat : Nat) : ℚ) := by
    rw [hE]
    push_cast
    field_simp
  rw [hK] at h3
  have hm0 : m0 = p * 2 ^ (-e0).toNat := by
    generalize p * 2 ^ (-e0).toNat = K at h3
    have h6 : |((m0 : Int) - (K : Int) : Int)| < 1 := by
      rw [← Int.cast_lt (R := ℚ), Int.cast_abs]
      push_cast
      calc _ ≤ (1 : ℚ) / 2 := h3
        _ < 1 := by norm_num
    have h7 := Int.abs_lt_one_iff.mp h6
    omega
  have hE0pos : (0 : ℚ) < (2 : ℚ) ^ e0 := by positivity
  have hlt : m0 < 2 ^ 53 := by
    have h8 : ((m0 : Nat) : ℚ) < (2 : ℚ) ^ 53 := by
      rw [hm0, ← hK, div_lt_iff₀ hE0pos]
      exact hy2
    exact_mod_cast h8
  have hne : m0 ≠ 2 ^ 53 := by omega
  rw [if_neg hne, if_neg hne] at hround
  refine ⟨m0, e0, hround, hm_lo, hlt, by omega, he0, ?_⟩
  rw [hm0, ← hK]
  field_simp

theorem div_spec (s t : Bool) (ma mb : Nat) (ea eb : Int)
    (hma : 2 ^ 52 ≤ ma) (hma2 : ma < 2 ^ 53) (hmb : 2 ^ 52 ≤ mb) (hmb2 : mb < 2 ^ 53)
    (hea1 : -53 ≤ ea) (hea2 : ea ≤ 0) (heb1 : -53 ≤ eb) (heb2 : eb ≤ 0) :
    ∃ (m : Nat) (e : Int),
      Double.div (.finite s ma ea) (.finite t mb eb) = .finite (xor s t) m e ∧
      2 ^ 52 ≤ m ∧ m < 2 ^ 53 ∧ -200 ≤ e ∧ e ≤ 200 ∧
      |(m : ℚ) * (2 : ℚ) ^ e - (ma : ℚ) * (2 : ℚ) ^ ea / ((mb : ℚ) * (2 : ℚ) ^ eb)|
        ≤ (ma : ℚ) * (2 : ℚ) ^ ea / ((mb : ℚ) * (2 : ℚ) ^ eb) / 2 ^ 53 := by
  have hma0 : 0 < ma := by omega
  have hmb0 : 0 < mb := by omega
  obtain ⟨hP, hP2, hQ, hQ2⟩ := scale2_bounds ma mb (eb - ea) 53 53 hma0 hmb0 hma2 hmb2
    (by push_cast; omega) (by push_cast; omega)
  obtain ⟨hd1, hd2, hd3, hd4⟩ := bits_diff_bounds _ _ (53 + 53) hP hQ hP2 hQ2 (by norm_num)
  obtain ⟨m, e, hr, hm1, hm2, he1, he2, herr⟩ :=
    round_spec (xor s t) _ _ hP hQ hd1 hd2
  have hval : ((scale2 ma mb (eb - ea)).1 : ℚ) / ((scale2 ma mb (eb - ea)).2 : ℚ)
      = (ma : ℚ) * (2 : ℚ) ^ ea / ((mb : ℚ) * (2 : ℚ) ^ eb) := by
    rw [(scale2_spec ma mb (eb - ea) hmb0).2, zpow_sub₀ (by norm_num : (2 : ℚ) ≠ 0)]
    have h1 : (0 : ℚ) < (2 : ℚ) ^ ea := by positivity
    have h2 : (0 : ℚ) < (2 : ℚ) ^ eb := by positivity
    have h3 : (0 : ℚ) < (mb : ℚ) := by exact_mod_cast hmb0
    field_simp
  rw [hval] at herr
  refine ⟨m, e, ?_, hm1, hm2, by push_cast at hd3; omega, by push_cast at hd4; omega, herr⟩
  simp only [Double.div]
  rw [if_neg (by omega)]
  exact hr

theorem mul_spec (s t : Bool) (ma mb : Nat) (ea eb : Int)
    (hma : 2 ^ 52 ≤ ma) (hma2 : ma < 2 ^ 53) (hmb : 2 ^ 52 ≤ mb) (hmb2 : mb < 2 ^ 53)
    (hea1 : -200 ≤ ea) (hea2 : ea ≤ 200) (heb1 : -200 ≤ eb) (heb2 : eb ≤ 200) :
    ∃ (m : Nat) (e : Int),
      Double.mul (.finite s ma ea) (.finite t mb eb) = .finite (xor s t) m e ∧
      |(m : ℚ) * (2 : ℚ) ^ e - (ma : ℚ) * (2 : ℚ) ^ ea * ((mb : ℚ) * (2 : ℚ) ^ eb)|
        ≤ (ma : ℚ) * (2 : ℚ) ^ ea * ((mb : ℚ) * (2 : ℚ) ^ eb) / 2 ^ 53 := by
  have hma0 : 0 < ma := by omega
  have hmb0 : 0 < mb := by omega
  have hprod0 : 0 < ma * mb := Nat.mul_pos hma0 hmb0
  have hprod : ma * mb < 2 ^ 106 := by
    calc ma * mb < 2 ^ 53 * 2 ^ 53 := Nat.mul_lt_mul'' hma2 hmb2
      _ = 2 ^ 106 := by norm_num
  obtain ⟨hP, hP2, hQ, hQ2⟩ := scale2_bounds (ma * mb) 1 (-(ea + eb)) 106 400 hprod0
    (by norm_num) hprod (by norm_num) (by push_cast; omega) (by push_cast; omega)
  obtain ⟨hd1, hd2, _, _⟩ := bits_diff_bounds _ _ (106 + 400) hP hQ hP2 hQ2 (by norm_num)
  obtain ⟨m, e, hr, _, _, _, _, herr⟩ := round_spec (xor s t) _ _ hP hQ hd1 hd2
  have hval : ((scale2 (ma * mb) 1 (-(ea + eb))).1 : ℚ) / ((scale2 (ma * mb) 1 (-(ea + eb))).2 : ℚ)
      = (ma : ℚ) * (2 : ℚ) ^ ea * ((mb : ℚ) * (2 : ℚ) ^ eb) := by
    rw [(scale2_spec (ma * mb) 1 (-(ea + eb)) (by norm_num)).2, zpow_neg,
      zpow_add₀ (by norm_num : (2 : ℚ) ≠ 0)]
    have h1 : (0 : ℚ) < (2 : ℚ) ^ ea := by positivity
    have h2 : (0 : ℚ) < (2 : ℚ) ^ eb := by positivity
    push_cast
    field_simp
    ring
  rw [hval] at herr
  exact ⟨m, e, by simp only [Double.mul]; exact hr, herr⟩

theorem scale2_zero (q : Nat) (e : Int) : (scale2 0 q e).1 = 0 := by
  unfold scale2
  split <;> simp

theorem round_zero (neg : Bool) (q : Nat) : Double.round neg 0 q = .finite neg 0 0 := by
  simp [Double.round]

theorem ofInt_hundred : Double.ofInt 100 = .finite false 7036874417766400 (-46) := by
  set_option maxRecDepth 100000 in
  rfl

theorem two_roundings (x y z u : ℚ) (hx : 0 < x) (hu0 : 0 ≤ u) (hu1 : u ≤ 1)
    (h1 : |y - x| ≤ x * u) (h2 : |z - y * 100| ≤ y * 100 * u) :
    |z - x * 100| ≤ x * 100 * (4 * u) := by
  have h1l := abs_le.mp h1
  have h2l := abs_le.mp h2
  have hxu : x * u ≤ x := by nlinarith
  have hy2 : y ≤ 2 * x := by linarith
  have hyu : y * u ≤ 2 * x * u := mul_le_mul_of_nonneg_right hy2 hu0
  have hxu0 : 0 ≤ x * u := mul_nonneg hx.le hu0
  rw [abs_le]
  constructor <;> nlinarith

/-- The availability computed for `total > 0` is a finite `double` within a
relative error of `2^-51` of the quotient `available / total * 100`. -/
theorem availability_accuracy (total available : Int) (ht : 0 < total) (ht2 : total < 2 ^ 31)
    (ha1 : -2 ^ 31 ≤ available) (ha2 : available < 2 ^ 31) :
    ∃ v : ℚ, (availability total available).toRat = some v ∧
      |v - (available : ℚ) / (total : ℚ) * 100|
        ≤ |(available : ℚ) / (total : ℚ) * 100| / 2 ^ 51 := by
  have htQ : (0 : ℚ) < (total : ℚ) := by exact_mod_cast ht
  have htabs : ((total.natAbs : Nat) : ℚ) = (total : ℚ) := by
    rw [Nat.cast_natAbs, abs_of_pos ht]
  have htn : total.natAbs < 2 ^ 53 := by omega
  obtain ⟨mt, et, hT, hmt1, hmt2, het1, het2, hTv⟩ :=
    round_nat_exact (decide (total < 0)) total.natAbs (by omega) htn
  have hneg : decide (total < 0) = false := by
    simp only [decide_eq_false_iff_not]
    omega
  rw [hneg] at hT
  rw [htabs] at hTv
  have hTT : Double.ofInt total = .finite false mt et := by
    unfold Double.ofInt
    rw [hneg]
    exact hT
  unfold availability
  rw [if_pos ht]
  by_cases ha : available = 0
  · subst ha
    refine ⟨0, ?_, by simp⟩
    have h0 : Double.ofInt 0 = .finite false 0 0 := by simp [Double.ofInt, round_zero]
    rw [h0, hTT, ofInt_hundred]
    simp only [Double.div]
    rw [if_neg (by omega), scale2_zero, round_zero]
    simp only [Double.mul, Nat.zero_mul, scale2_zero, round_zero]
    simp [Double.toRat]
  · have han : available.natAbs < 2 ^ 53 := by omega
    obtain ⟨ma, ea, hA, hma1, hma2, hea1, hea2, hAv⟩ :=
      round_nat_exact (decide (available < 0)) available.natAbs (Int.natAbs_pos.mpr ha) han
    have hAA : Double.ofInt available = .finite (decide (available < 0)) ma ea := hA
    obtain ⟨m1, e1, hD, hm11, hm12, he11, he12, hDerr⟩ :=
      div_spec (decide (available < 0)) false ma mt ea et hma1 hma2 hmt1 hmt2 hea1 hea2 het1 het2
    obtain ⟨m2, e2, hM, hMerr⟩ :=
      mul_spec (xor (decide (available < 0)) false) false m1 7036874417766400 e1 (-46)
        hm11 hm12 (by norm_num) (by norm_num) he11 he12 (by norm_num) (by norm_num)
    rw [hAA, hTT, ofInt_hundred, hD, hM]
    have hc : ((7036874417766400 : Nat) : ℚ) * (2 : ℚ) ^ (-46 : Int) = 100 := by
      rw [zpow_neg]
      norm_num
    rw [hc] at hMerr
    rw [hAv, hTv] at hDerr
    set x : ℚ := (available.natAbs : ℚ) / (total : ℚ) with hx
    set y : ℚ := (m1 : ℚ) * (2 : ℚ) ^ e1 with hy
    set z : ℚ := (m2 : ℚ) * (2 : ℚ) ^ e2 with hz
    have hxpos : 0 < x := by
      apply div_pos _ htQ
      exact_mod_cast Int.natAbs_pos.mpr ha
    have hzerr : |z - x * 100| ≤ x * 100 / 2 ^ 51 := by
      have h := two_roundings x y z (1 / 2 ^ 53) hxpos (by positivity)
        (by rw [div_le_one (by positivity)]; norm_num)
        (by rw [mul_one_div]; exact hDerr) (by rw [mul_one_div]; exact hMerr)
      have e : x * 100 * (4 * (1 / 2 ^ 53)) = x * 100 / 2 ^ 51 := by
        rw [show (2 : ℚ) ^ 53 = 4 * 2 ^ 51 by norm_num]
        field_simp
        ring
      rw [e] at h
      exact h
    have habs : ((available.natAbs : Nat) : ℚ) = |(available : ℚ)| := by
      rw [Nat.cast_natAbs, Int.cast_abs]
    have hx100 : 0 < x * 100 := mul_pos hxpos (by norm_num)
    by_cases hneg2 : available < 0
    · refine ⟨-z, ?_, ?_⟩
      · simp [Double.toRat, hneg2, hz]
      · have hav : (available : ℚ) < 0 := by exact_mod_cast hneg2
        have e1 : (available : ℚ) / (total : ℚ) * 100 = -(x * 100) := by
          rw [hx, habs, abs_of_neg hav]
          ring
        have e2 : -z - -(x * 100) = -(z - x * 100) := by ring
        rw [e1, e2, abs_neg, abs_neg, abs_of_pos hx100]
        exact hzerr
    · refine ⟨z, ?_, ?_⟩
      · simp [Double.toRat, hneg2, hz]
      · have hav : (0 : ℚ) ≤ (available : ℚ) := by exact_mod_cast not_lt.mp hneg2
        have e1 : (available : ℚ) / (total : ℚ) * 100 = x * 100 := by
          rw [hx, habs, abs_of_nonneg hav]
        rw [e1, abs_of_pos hx100]
        exact hzerr

/-- C6: the availability computed by `writeReport` is the constant `0.0` when
`total` is 0 (neither operand is converted and nothing is divided); for
`total > 0` it is the `double` product by `100.0` of the `double` quotient of
`available` by `total`, which for `int` arguments is a finite number within a
relative error of `2^-51` of the exact `available / total * 100`. -/
theorem availability_cases (total available : Int) :
    (total = 0 →
      availability total available = Double.zero ∧
      (availability total available).toRat = some 0) ∧
    (total > 0 →
      availability total available
        = Double.mul (Double.div (Double.ofInt available) (Double.ofInt total))
            (Double.ofInt 100)) ∧
    (total > 0 → total < 2 ^ 31 → -2 ^ 31 ≤ available → available < 2 ^ 31 →
      ∃ v : ℚ, (availability total available).toRat = some v ∧
        |v - (available : ℚ) / (total : ℚ) * 100|
          ≤ |(available : ℚ) / (total : ℚ) * 100| / 2 ^ 51) := by
  refine ⟨?_, ?_, ?_⟩
  · intro h
    simp [availability, h, Double.zero, Double.toRat]
  · intro h
    simp [availability, h]
  · intro h1 h2 h3 h4
    exact availability_accuracy total available h1 h2 h3 h4

/-- C6 at `total = 0`, and at `total = 3`, `available = 2`. -/
theorem availability_cases_witness :
    availability 0 5 = Double.zero ∧
    availability 3 2 = Double.finite false 4691249611844266 (-46) ∧
    (∃ v : ℚ, (availability 3 2).toRat = some v ∧
      |v - ((2 : Int) : ℚ) / ((3 : Int) : ℚ) * 100|
        ≤ |((2 : Int) : ℚ) / ((3 : Int) : ℚ) * 100| / 2 ^ 51) :=
  ⟨((availability_cases 0 5).1 rfl).1,
   ((availability_cases 3 2).2.1 (by decide)).trans
    (by set_option maxRecDepth 100000 in rfl),
   (availability_cases 3 2).2.2 (by decide) (by decide) (by decide) (by decide)⟩

/-! ## Theorems: the worker pool -/

theorem tally_set (f : Pc → Nat) (l : List Worker) (i : Nat) (w w1 : Worker)
    (h : l[i]? = some w) :
    tally f (l.set i w1) + f w.pc = tally f l + f w1.pc := by
  induction l generalizing i with
  | nil => simp at h
  | cons x rest ih =>
    cases i with
    | zero =>
      simp only [List.getElem?_cons_zero, Option.some.injEq] at h
      subst h
      simp only [tally, List.set_cons_zero, List.map_cons, List.sum_cons]
      omega
    | succ j =>
      simp only [List.getElem?_cons_succ] at h
      have := ih j h
      simp only [tally, List.set_cons_succ, List.map_cons, List.sum_cons] at this ⊢
      omega

theorem atomicInc_eq (x : Int) (h0 : 0 ≤ x) (h1 : x + 1 < 2 ^ 31) : atomicInc x = x + 1 := by
  unfold atomicInc
  norm_num at h1 ⊢
  omega

theorem mem_of_getElem?_eq (l : List Worker) (i : Nat) (w : Worker) (h : l[i]? = some w) :
    w ∈ l := by
  rw [List.getElem?_eq_some_iff] at h
  obtain ⟨hi, rfl⟩ := h
  exact List.getElem_mem hi

theorem mem_set_cases (l : List Worker) (i : Nat) (w1 x : Worker) (h : x ∈ l.set i w1) :
    x ∈ l ∨ x = w1 := List.mem_or_eq_of_mem_set h

theorem tally_pos_of_mem (f : Pc → Nat) (l : List Worker) (w : Worker) (h : w ∈ l) :
    f w.pc ≤ tally f l := by
  induction l with
  | nil => simp at h
  | cons x rest ih =>
    simp only [tally, List.map_cons, List.sum_cons]
    rcases List.mem_cons.mp h with rfl | hr
    · omega
    · have := ih hr
      simp only [tally] at this
      omega

/-- Re-establishing the invariant after worker `i` moved from `w` to `w1`. -/
theorem Inv_update (n : Nat) (p : Pool) (i : Nat) (w w1 : Worker) (q : ThreadSafeQueue)
    (t a : Int) (hw : p.workers[i]? = some w) (h : p.Inv n)
    (hfin : q.finished_ = true)
    (htot : t + (Pc.uncounted w1.pc : Int) + (q.queue_.length : Int)
      = p.totalArticles + (Pc.uncounted w.pc : Int) + (p.articleQueue.queue_.length : Int))
    (ha0 : 0 ≤ a)
    (hav : a + (Pc.unsettled w1.pc : Int) + p.totalArticles
      ≤ t + p.availableArticles + (Pc.unsettled w.pc : Int))
    (hq1 : w1.pc = Pc.finished → q.queue_ = [])
    (hq2 : p.articleQueue.queue_ = [] → q.queue_ = []) :
    Pool.Inv n { articleQueue := q, totalArticles := t, availableArticles := a,
                 workers := p.workers.set i w1 } := by
  obtain ⟨_, h2, _, h4, h5⟩ := h
  have hu := tally_set Pc.uncounted p.workers i w w1 hw
  have hs := tally_set Pc.unsettled p.workers i w w1 hw
  refine ⟨hfin, ?_, ha0, ?_, ?_⟩
  · simp only []
    omega
  · simp only []
    omega
  · rintro ⟨x, hx, hpc⟩
    simp only [] at hx ⊢
    rcases mem_set_cases _ _ _ _ hx with hold | rfl
    · exact hq2 (h5 ⟨x, hold, hpc⟩)
    · exact hq1 hpc

theorem step_Inv (cfg : ServerConfig) (remotes : Nat → Remote) (n : Nat) (p : Pool) (i : Nat)
    (hn : n < 2 ^ 31) (h : p.Inv n) : (p.step cfg remotes i).Inv n := by
  unfold Pool.step
  cases hw : p.workers[i]? with
  | none => exact h
  | some w =>
    simp only []
    have hmem := mem_of_getElem?_eq _ _ _ hw
    have hu := tally_pos_of_mem Pc.uncounted _ _ hmem
    have hs := tally_pos_of_mem Pc.unsettled _ _ hmem
    obtain ⟨h1, h2, h3, h4, h5⟩ := id h
    cases hpc : w.pc with
    | start =>
      simp only []
      rcases hc : w.client.connect (remotes i) cfg.server cfg.port with ⟨res, c⟩
      cases res with
      | ok u =>
        exact Inv_update n p i w _ _ _ _ hw h h1 (by simp only [hpc, Pc.uncounted, Pc.unsettled]) h3
          (by simp only [hpc, Pc.uncounted, Pc.unsettled]; omega) (by simp) id
      | error what =>
        exact Inv_update n p i w _ _ _ _ hw h h1 (by simp only [hpc, Pc.uncounted, Pc.unsettled]) h3
          (by simp only [hpc, Pc.uncounted, Pc.unsettled]; omega) (by simp) id
    | connected =>
      simp only []
      by_cases hun : cfg.username = []
      · rw [if_neg (not_not.mpr hun)]
        exact Inv_update n p i w _ _ _ _ hw h h1 (by simp only [hpc, Pc.uncounted, Pc.unsettled]) h3
          (by simp only [hpc, Pc.uncounted, Pc.unsettled]; omega) (by simp) id
      · rw [if_pos hun]
        rcases hc : w.client.login (remotes i) cfg.username cfg.password with ⟨res, c⟩
        cases res with
        | ok u =>
          exact Inv_update n p i w _ _ _ _ hw h h1 (by simp only [hpc, Pc.uncounted, Pc.unsettled]) h3
            (by simp only [hpc, Pc.uncounted, Pc.unsettled]; omega) (by simp) id
        | error what =>
          exact Inv_update n p i w _ _ _ _ hw h h1 (by simp only [hpc, Pc.uncounted, Pc.unsettled]) h3
            (by simp only [hpc, Pc.uncounted, Pc.unsettled]; omega) (by simp) id
    | loop =>
      simp only []
      rcases hq : p.articleQueue with ⟨items, fin⟩
      rw [hq] at h1 h2 h5
      simp only [] at h1
      subst h1
      cases items with
      | nil =>
        simp only [ThreadSafeQueue.try_pop, List.isEmpty_nil, Bool.not_true, Bool.and_false,
          Bool.false_eq_true, if_false]
        exact Inv_update n p i w _ _ _ _ hw h rfl
          (by simp only [hpc, Pc.uncounted, Pc.unsettled, hq, List.length_cons, List.length_nil]) h3 (by simp only [hpc, Pc.uncounted, Pc.unsettled]; omega) (by simp)
          (by simp)
      | cons front rest =>
        simp only [ThreadSafeQueue.try_pop, List.isEmpty_cons, Bool.false_and,
          Bool.false_eq_true, if_false]
        exact Inv_update n p i w _ _ _ _ hw h rfl
          (by simp only [hpc, Pc.uncounted, Pc.unsettled, hq, List.length_cons, List.length_nil]; omega) h3 (by simp only [hpc, Pc.uncounted, Pc.unsettled]; omega)
          (by simp) (by simp [hq])
    | popped articleId =>
      simp only []
      rw [hpc] at hu hs
      simp only [Pc.uncounted, Pc.unsettled] at hu hs
      have hinc : atomicInc p.totalArticles = p.totalArticles + 1 :=
        atomicInc_eq _ (by omega) (by norm_num at hn ⊢; omega)
      rw [hinc]
      exact Inv_update n p i w _ _ _ _ hw h h1 (by simp only [hpc, Pc.uncounted, Pc.unsettled]; omega) h3
        (by simp only [hpc, Pc.uncounted, Pc.unsettled]; omega) (by simp) id
    | counted articleId =>
      simp only []
      rcases hc : w.client.checkNZBExists (remotes i) articleId with ⟨res, c⟩
      cases res with
      | ok b =>
        cases b with
        | true =>
          exact Inv_update n p i w _ _ _ _ hw h h1 (by simp only [hpc, Pc.uncounted, Pc.unsettled]) h3
            (by simp only [hpc, Pc.uncounted, Pc.unsettled]; omega) (by simp) id
        | false =>
          exact Inv_update n p i w _ _ _ _ hw h h1 (by simp only [hpc, Pc.uncounted, Pc.unsettled]) h3
            (by simp only [hpc, Pc.uncounted, Pc.unsettled]; omega) (by simp) id
      | error what =>
        exact Inv_update n p i w _ _ _ _ hw h h1 (by simp only [hpc, Pc.uncounted, Pc.unsettled]) h3
          (by simp only [hpc, Pc.uncounted, Pc.unsettled]; omega) (by simp) id
    | found =>
      simp only []
      rw [hpc] at hu hs
      simp only [Pc.uncounted, Pc.unsettled] at hu hs
      have hinc : atomicInc p.availableArticles = p.availableArticles + 1 :=
        atomicInc_eq _ h3 (by norm_num at hn ⊢; omega)
      rw [hinc]
      exact Inv_update n p i w _ _ _ _ hw h h1 (by simp only [hpc, Pc.uncounted, Pc.unsettled]) (by omega)
        (by simp only [hpc, Pc.uncounted, Pc.unsettled]; omega) (by simp) id
    | finished => exact h
    | failed what => exact h

theorem tally_replicate_start (f : Pc → Nat) (hf : f Pc.start = 0) (k : Nat) (c : NNTPClient) :
    tally f (List.replicate k ⟨Pc.start, c⟩) = 0 := by
  induction k with
  | zero => simp [tally]
  | succ k ih =>
    simp only [tally, List.replicate_succ, List.map_cons, List.sum_cons] at ih ⊢
    omega

theorem init_queue (cfg : ServerConfig) (rootNode : xml_node) :
    (Pool.init cfg rootNode).articleQueue.queue_ = suppliedIds rootNode ∧
    (Pool.init cfg rootNode).articleQueue.finished_ = true := by
  simp [Pool.init, ThreadSafeQueue.set_finished, suppliedIds]

theorem init_Inv (cfg : ServerConfig) (rootNode : xml_node) :
    (Pool.init cfg rootNode).Inv (suppliedIds rootNode).length := by
  refine ⟨(init_queue cfg rootNode).2, ?_, ?_, ?_, ?_⟩
  · rw [(init_queue cfg rootNode).1]
    simp [Pool.init, tally_replicate_start Pc.uncounted rfl]
  · simp [Pool.init]
  · simp [Pool.init, tally_replicate_start Pc.unsettled rfl]
  · rintro ⟨w, hw, hpc⟩
    simp only [Pool.init] at hw
    rw [List.eq_of_mem_replicate hw] at hpc
    simp at hpc

theorem foldl_step_Inv (cfg : ServerConfig) (remotes : Nat → Remote) (n : Nat)
    (hn : n < 2 ^ 31) (schedule : List Nat) (p : Pool) (h : p.Inv n) :
    (schedule.foldl (Pool.step cfg remotes) p).Inv n := by
  induction schedule generalizing p with
  | nil => exact h
  | cons i rest ih => exact ih _ (step_Inv cfg remotes n p i hn h)

theorem run_Inv (cfg : ServerConfig) (remotes : Nat → Remote) (rootNode : xml_node)
    (schedule : List Nat) (hn : (suppliedIds rootNode).length < 2 ^ 31) :
    (Pool.run cfg remotes rootNode schedule).Inv (suppliedIds rootNode).length :=
  foldl_step_Inv cfg remotes _ hn schedule _ (init_Inv cfg rootNode)

theorem tally_eq_zero (f : Pc → Nat) (l : List Worker) (h : ∀ w ∈ l, f w.pc = 0) :
    tally f l = 0 := by
  induction l with
  | nil => simp [tally]
  | cons x rest ih =>
    have hx := h x (List.mem_cons_self _ _)
    have hr := ih (fun w hw => h w (List.mem_cons_of_mem _ hw))
    simp only [tally, List.map_cons, List.sum_cons] at hr ⊢
    omega

theorem ended_cases (w : Worker) (h : w.ended = true) :
    w.pc = Pc.finished ∨ ∃ what, w.pc = Pc.failed what := by
  unfold Worker.ended at h
  cases hpc : w.pc <;> rw [hpc] at h <;> simp at h ⊢

theorem joined_tally (p : Pool) (h : p.joined = true) (f : Pc → Nat)
    (hfin : f Pc.finished = 0) (hfail : ∀ what, f (Pc.failed what) = 0) :
    tally f p.workers = 0 := by
  apply tally_eq_zero
  intro w hw
  have hall : ∀ x ∈ p.workers, x.ended = true := by
    simpa [Pool.joined, List.all_eq_true] using h
  rcases ended_cases w (hall w hw) with hpc | ⟨what, hpc⟩
  · rw [hpc, hfin]
  · rw [hpc, hfail]

theorem step_workers_length (cfg : ServerConfig) (remotes : Nat → Remote) (p : Pool) (i : Nat) :
    (p.step cfg remotes i).workers.length = p.workers.length := by
  unfold Pool.step
  cases hw : p.workers[i]? with
  | none => rfl
  | some w =>
    simp only []
    cases hpc : w.pc with
    | start =>
      simp only []
      rcases hc : w.client.connect (remotes i) cfg.server cfg.port with ⟨res, c⟩
      cases res <;> simp
    | connected =>
      simp only []
      split
      · rcases hc : w.client.login (remotes i) cfg.username cfg.password with ⟨res, c⟩
        cases res <;> simp
      · simp
    | loop =>
      simp only []
      rcases hc : p.articleQueue.try_pop with ⟨res, q⟩
      cases res <;> simp
    | popped articleId => simp
    | counted articleId =>
      simp only []
      rcases hc : w.client.checkNZBExists (remotes i) articleId with ⟨res, c⟩
      rcases res with what | b
      · simp
      · cases b <;> simp
    | found => simp
    | finished => rfl
    | failed what => rfl

theorem foldl_workers_length (cfg : ServerConfig) (remotes : Nat → Remote) (l : List Nat)
    (p : Pool) : (l.foldl (Pool.step cfg remotes) p).workers.length = p.workers.length := by
  induction l generalizing p with
  | nil => rfl
  | cons i rest ih => rw [List.foldl_cons, ih, step_workers_length]

theorem run_workers_length (cfg : ServerConfig) (remotes : Nat → Remote) (rootNode : xml_node)
    (schedule : List Nat) :
    (Pool.run cfg remotes rootNode schedule).workers.length = cfg.connections.toNat := by
  unfold Pool.run
  rw [foldl_workers_length]
  simp [Pool.init]

theorem completed_iff (l : List Worker) :
    l.any Worker.completed = true ↔ ∃ w ∈ l, w.pc = Pc.finished := by
  simp only [List.any_eq_true]
  constructor
  · rintro ⟨w, hw, hc⟩
    refine ⟨w, hw, ?_⟩
    unfold Worker.completed at hc
    cases hpc : w.pc <;> rw [hpc] at hc <;> simp at hc ⊢
  · rintro ⟨w, hw, hpc⟩
    exact ⟨w, hw, by simp [Worker.completed, hpc]⟩

theorem step_workers_shape (cfg : ServerConfig) (remotes : Nat → Remote) (p : Pool) (i : Nat) :
    (p.step cfg remotes i).workers = p.workers ∨
    ∃ w1, (p.step cfg remotes i).workers = p.workers.set i w1 := by
  unfold Pool.step
  cases hw : p.workers[i]? with
  | none => exact Or.inl rfl
  | some w =>
    simp only []
    cases hpc : w.pc with
    | start =>
      simp only []
      rcases hc : w.client.connect (remotes i) cfg.server cfg.port with ⟨res, c⟩
      cases res <;> exact Or.inr ⟨_, rfl⟩
    | connected =>
      simp only []
      split
      · rcases hc : w.client.login (remotes i) cfg.username cfg.password with ⟨res, c⟩
        cases res <;> exact Or.inr ⟨_, rfl⟩
      · exact Or.inr ⟨_, rfl⟩
    | loop =>
      simp only []
      rcases hc : p.articleQueue.try_pop with ⟨res, q⟩
      cases res
      · exact Or.inl rfl
      · exact Or.inr ⟨_, rfl⟩
      · exact Or.inr ⟨_, rfl⟩
    | popped articleId => exact Or.inr ⟨_, rfl⟩
    | counted articleId =>
      simp only []
      rcases hc : w.client.checkNZBExists (remotes i) articleId with ⟨res, c⟩
      rcases res with what | b
      · exact Or.inr ⟨_, rfl⟩
      · cases b <;> exact Or.inr ⟨_, rfl⟩
    | found => exact Or.inr ⟨_, rfl⟩
    | finished => exact Or.inl rfl
    | failed what => exact Or.inl rfl

theorem step_ended (cfg : ServerConfig) (remotes : Nat → Remote) (p : Pool) (i : Nat)
    (w : Worker) (hw : p.workers[i]? = some w) (he : w.ended = true) :
    p.step cfg remotes i = p := by
  unfold Pool.step
  rw [hw]
  rcases ended_cases w he with hpc | ⟨what, hpc⟩ <;> simp [hpc]

theorem joined_total (cfg : ServerConfig) (remotes : Nat → Remote) (rootNode : xml_node)
    (schedule : List Nat) (hn : (suppliedIds rootNode).length < 2 ^ 31)
    (hj : (Pool.run cfg remotes rootNode schedule).joined = true) :
    (Pool.run cfg remotes rootNode schedule).totalArticles
        + ((Pool.run cfg remotes rootNode schedule).articleQueue.queue_.length : Int)
      = ((suppliedIds rootNode).length : Int) ∧
    ((Pool.run cfg remotes rootNode schedule).workers.any Worker.completed = true →
      (Pool.run cfg remotes rootNode schedule).articleQueue.queue_ = [] ∧
      (Pool.run cfg remotes rootNode schedule).totalArticles
        = ((suppliedIds rootNode).length : Int)) := by
  obtain ⟨_, h2, _, _, h5⟩ := run_Inv cfg remotes rootNode schedule hn
  have hz := joined_tally _ hj Pc.uncounted rfl (fun _ => rfl)
  rw [hz] at h2
  constructor
  · simpa using h2
  · intro hc
    have hq := h5 ((completed_iff _).mp hc)
    rw [hq] at h2
    exact ⟨hq, by simpa using h2⟩

theorem step_other (cfg : ServerConfig) (remotes : Nat → Remote) (p : Pool) (i j : Nat)
    (hji : j ≠ i) : (p.step cfg remotes i).workers[j]? = p.workers[j]? := by
  rcases step_workers_shape cfg remotes p i with h | ⟨w1, h⟩
  · rw [h]
  · rw [h, List.getElem?_set_ne (Ne.symm hji)]

theorem rank_eq_zero (w : Worker) : Pc.rank w.pc = 0 ↔ w.ended = true := by
  unfold Worker.ended
  cases w.pc <;> simp [Pc.rank]

/-- An atomic action of a pool whose queue is marked finished keeps the mark, never
raises the potential, and lowers it when the worker has not ended. -/
theorem step_potential (cfg : ServerConfig) (remotes : Nat → Remote) (p : Pool) (i : Nat)
    (hfin : p.articleQueue.finished_ = true) :
    (p.step cfg remotes i).articleQueue.finished_ = true ∧
    (p.step cfg remotes i).potential ≤ p.potential ∧
    (∀ w, p.workers[i]? = some w → w.ended = false →
      (p.step cfg remotes i).potential < p.potential) := by
  unfold Pool.step
  cases hw : p.workers[i]? with
  | none => exact ⟨hfin, le_refl _, fun w h => by cases h⟩
  | some w =>
    simp only []
    have hr := fun w1 => tally_set Pc.rank p.workers i w w1 hw
    cases hpc : w.pc with
    | start =>
      simp only []
      rcases hc : w.client.connect (remotes i) cfg.server cfg.port with ⟨res, c⟩
      cases res with
      | ok u =>
        have := hr ⟨Pc.connected, c⟩
        simp only [hpc, Pc.rank, Pool.potential] at this ⊢
        exact ⟨hfin, by omega, fun _ _ _ => by omega⟩
      | error what =>
        have := hr ⟨Pc.failed what, c.destroy (remotes i)⟩
        simp only [hpc, Pc.rank, Pool.potential] at this ⊢
        exact ⟨hfin, by omega, fun _ _ _ => by omega⟩
    | connected =>
      simp only []
      split
      · rcases hc : w.client.login (remotes i) cfg.username cfg.password with ⟨res, c⟩
        cases res with
        | ok u =>
          have := hr ⟨Pc.loop, c⟩
          simp only [hpc, Pc.rank, Pool.potential] at this ⊢
          exact ⟨hfin, by omega, fun _ _ _ => by omega⟩
        | error what =>
          have := hr ⟨Pc.failed what, c.destroy (remotes i)⟩
          simp only [hpc, Pc.rank, Pool.potential] at this ⊢
          exact ⟨hfin, by omega, fun _ _ _ => by omega⟩
      · have := hr ⟨Pc.loop, w.client⟩
        simp only [hpc, Pc.rank, Pool.potential] at this ⊢
        exact ⟨hfin, by omega, fun _ _ _ => by omega⟩
    | loop =>
      simp only []
      rcases hq : p.articleQueue with ⟨items, fin⟩
      rw [hq] at hfin
      simp only [] at hfin
      subst hfin
      cases items with
      | nil =>
        have := hr ⟨Pc.finished, w.client.destroy (remotes i)⟩
        simp only [hpc, Pc.rank, Pool.potential, hq, List.length_nil] at this ⊢
        simp only [ThreadSafeQueue.try_pop, List.isEmpty_nil, Bool.not_true, Bool.and_false,
          Bool.false_eq_true, if_false, List.length_nil]
        exact ⟨trivial, by omega, fun _ _ _ => by omega⟩
      | cons front rest =>
        have := hr ⟨Pc.popped front, w.client⟩
        simp only [hpc, Pc.rank, Pool.potential, hq, List.length_cons] at this ⊢
        simp only [ThreadSafeQueue.try_pop, List.isEmpty_cons, Bool.false_and,
          Bool.false_eq_true, if_false]
        exact ⟨trivial, by omega, fun _ _ _ => by omega⟩
    | popped articleId =>
      have := hr ⟨Pc.counted articleId, w.client⟩
      simp only [hpc, Pc.rank, Pool.potential] at this ⊢
      exact ⟨hfin, by omega, fun _ _ _ => by omega⟩
    | counted articleId =>
      simp only []
      rcases hc : w.client.checkNZBExists (remotes i) articleId with ⟨res, c⟩
      rcases res with what | b
      · have := hr ⟨Pc.failed what, c.destroy (remotes i)⟩
        simp only [hpc, Pc.rank, Pool.potential] at this ⊢
        exact ⟨hfin, by omega, fun _ _ _ => by omega⟩
      · cases b with
        | true =>
          have := hr ⟨Pc.found, c⟩
          simp only [hpc, Pc.rank, Pool.potential] at this ⊢
          exact ⟨hfin, by omega, fun _ _ _ => by omega⟩
        | false =>
          have := hr ⟨Pc.loop, c⟩
          simp only [hpc, Pc.rank, Pool.potential] at this ⊢
          exact ⟨hfin, by omega, fun _ _ _ => by omega⟩
    | found =>
      have := hr ⟨Pc.loop, w.client⟩
      simp only [hpc, Pc.rank, Pool.potential] at this ⊢
      exact ⟨hfin, by omega, fun _ _ _ => by omega⟩
    | finished =>
      refine ⟨hfin, le_refl _, fun w1 h1 he => ?_⟩
      injection h1 with h1
      rw [← h1] at he
      simp [Worker.ended, hpc] at he
    | failed what =>
      refine ⟨hfin, le_refl _, fun w1 h1 he => ?_⟩
      injection h1 with h1
      rw [← h1] at he
      simp [Worker.ended, hpc] at he

theorem foldl_potential_le (cfg : ServerConfig) (remotes : Nat → Remote) (l : List Nat)
    (p : Pool) (hfin : p.articleQueue.finished_ = true) :
    (l.foldl (Pool.step cfg remotes) p).articleQueue.finished_ = true ∧
    (l.foldl (Pool.step cfg remotes) p).potential ≤ p.potential := by
  induction l generalizing p with
  | nil => exact ⟨hfin, le_refl _⟩
  | cons i rest ih =>
    obtain ⟨h1, h2, _⟩ := step_potential cfg remotes p i hfin
    obtain ⟨h3, h4⟩ := ih _ h1
    exact ⟨h3, le_trans h4 h2⟩

theorem foldl_potential_lt (cfg : ServerConfig) (remotes : Nat → Remote) (l : List Nat)
    (p : Pool) (hfin : p.articleQueue.finished_ = true) (j : Nat) (w : Worker)
    (hj : j ∈ l) (hw : p.workers[j]? = some w) (he : w.ended = false) :
    (l.foldl (Pool.step cfg remotes) p).potential < p.potential := by
  induction l generalizing p with
  | nil => cases hj
  | cons i rest ih =>
    obtain ⟨h1, h2, h3⟩ := step_potential cfg remotes p i hfin
    by_cases hij : j = i
    · subst hij
      exact lt_of_le_of_lt (foldl_potential_le cfg remotes rest _ h1).2 (h3 w hw he)
    · have hj2 : j ∈ rest := by
        rcases List.mem_cons.mp hj with h | h
        · exact absurd h hij
        · exact h
      have hw2 : (p.step cfg remotes i).workers[j]? = some w := by
        rw [step_other cfg remotes p i j hij, hw]
      exact lt_of_lt_of_le (ih _ h1 hj2 hw2) h2

theorem foldl_joined (cfg : ServerConfig) (remotes : Nat → Remote) (l : List Nat)
    (p : Pool) (hj : p.joined = true) : l.foldl (Pool.step cfg remotes) p = p := by
  have hall : ∀ x ∈ p.workers, x.ended = true := by
    simpa [Pool.joined, List.all_eq_true] using hj
  induction l with
  | nil => rfl
  | cons i rest ih =>
    have hs : p.step cfg remotes i = p := by
      cases hw : p.workers[i]? with
      | none => simp [Pool.step, hw]
      | some w => exact step_ended cfg remotes p i w hw (hall w (mem_of_getElem?_eq _ _ _ hw))
    rw [List.foldl_cons, hs, ih]

theorem not_joined_exists (p : Pool) (h : p.joined = false) :
    ∃ j w, j < p.workers.length ∧ p.workers[j]? = some w ∧ w.ended = false := by
  have hne : ¬ ∀ x ∈ p.workers, x.ended = true := by
    intro hall
    have : p.joined = true := by simpa [Pool.joined, List.all_eq_true] using hall
    rw [this] at h
    cases h
  push_neg at hne
  obtain ⟨x, hx, hxe⟩ := hne
  obtain ⟨j, hj, hjx⟩ := List.getElem_of_mem hx
  refine ⟨j, x, hj, ?_, by simpa using hxe⟩
  rw [List.getElem?_eq_getElem hj, hjx]

theorem roundRobin_joined (cfg : ServerConfig) (remotes : Nat → Remote) (rounds : Nat) :
    ∀ p : Pool, p.articleQueue.finished_ = true → p.potential ≤ rounds →
      ((roundRobin p.workers.length rounds).foldl (Pool.step cfg remotes) p).joined = true := by
  induction rounds with
  | zero =>
    intro p _ hpot
    simp only [roundRobin, List.foldl_nil, Pool.joined, List.all_eq_true]
    intro x hx
    have h1 := tally_pos_of_mem Pc.rank _ _ hx
    have h2 : Pc.rank x.pc = 0 := by
      unfold Pool.potential at hpot
      omega
    exact (rank_eq_zero x).mp h2
  | succ rounds ih =>
    intro p hfin hpot
    simp only [roundRobin, List.foldl_append]
    cases hjn : p.joined with
    | true =>
      rw [foldl_joined cfg remotes _ p hjn, foldl_joined cfg remotes _ p hjn]
      exact hjn
    | false =>
      obtain ⟨j, w, hj, hw, he⟩ := not_joined_exists p hjn
      have hlt := foldl_potential_lt cfg remotes (List.range p.workers.length) p hfin j w
        (List.mem_range.mpr hj) hw he
      have hfin2 := (foldl_potential_le cfg remotes (List.range p.workers.length) p hfin).1
      have hlen := foldl_workers_length cfg remotes (List.range p.workers.length) p
      have := ih _ hfin2 (by omega)
      rw [hlen] at this
      exact this

/-- Under the round-robin schedule of enough rounds, every worker of a pool ends:
the joins of `processServer` return. -/
theorem run_roundRobin_joined (cfg : ServerConfig) (remotes : Nat → Remote)
    (rootNode : xml_node) :
    (Pool.run cfg remotes rootNode
      (roundRobin cfg.connections.toNat
        (4 * (suppliedIds rootNode).length + 3 * cfg.connections.toNat))).joined = true := by
  have hlen : (Pool.init cfg rootNode).workers.length = cfg.connections.toNat := by
    simp [Pool.init]
  have hpot : (Pool.init cfg rootNode).potential
      ≤ 4 * (suppliedIds rootNode).length + 3 * cfg.connections.toNat := by
    unfold Pool.potential
    rw [(init_queue cfg rootNode).1]
    have : tally Pc.rank (Pool.init cfg rootNode).workers = 3 * cfg.connections.toNat := by
      simp only [Pool.init]
      generalize cfg.connections.toNat = k
      induction k with
      | zero => simp [tally]
      | succ k ih =>
        simp only [tally, List.replicate_succ, List.map_cons, List.sum_cons, Pc.rank] at ih ⊢
        omega
    omega
  have := roundRobin_joined cfg remotes _ (Pool.init cfg rootNode)
    (init_queue cfg rootNode).2 hpot
  rw [hlen] at this
  exact this

theorem InvAnswer_update (answer : CppString → Bool) (ids : List CppString) (p : Pool)
    (i : Nat) (w w1 : Worker) (q : ThreadSafeQueue) (t a : Int)
    (hw : p.workers[i]? = some w) (h : p.InvAnswer answer ids)
    (hnf : ∀ what, w1.pc ≠ Pc.failed what)
    (heq : a + (Pc.owed answer w1.pc : Int) + ((q.queue_.countP answer : Nat) : Int)
      = p.availableArticles + (Pc.owed answer w.pc : Int)
        + ((p.articleQueue.queue_.countP answer : Nat) : Int)) :
    Pool.InvAnswer answer ids { articleQueue := q, totalArticles := t, availableArticles := a,
                                workers := p.workers.set i w1 } := by
  obtain ⟨h1, h2⟩ := h
  have ho := tally_set (Pc.owed answer) p.workers i w w1 hw
  constructor
  · intro x hx
    simp only [] at hx
    rcases mem_set_cases _ _ _ _ hx with hold | rfl
    · exact h1 x hold
    · exact hnf
  · simp only []
    omega

theorem step_InvAnswer (cfg : ServerConfig) (remotes : Nat → Remote)
    (answer : CppString → Bool) (ids : List CppString) (n : Nat) (p : Pool) (i : Nat)
    (hconn : ∀ k c, (NNTPClient.connect (remotes k) c cfg.server cfg.port).1 = .ok ())
    (huser : cfg.username = [])
    (hcheck : ∀ k c x, (NNTPClient.checkNZBExists (remotes k) c x).1 = .ok (answer x))
    (hn : n < 2 ^ 31) (hInv : p.Inv n) (h : p.InvAnswer answer ids) :
    (p.step cfg remotes i).InvAnswer answer ids := by
  unfold Pool.step
  cases hw : p.workers[i]? with
  | none => exact h
  | some w =>
    simp only []
    have hmem := mem_of_getElem?_eq _ _ _ hw
    have hs := tally_pos_of_mem Pc.unsettled _ _ hmem
    obtain ⟨_, h2, h3, h4, _⟩ := id hInv
    cases hpc : w.pc with
    | start =>
      simp only []
      have hc1 := hconn i w.client
      rcases hc : w.client.connect (remotes i) cfg.server cfg.port with ⟨res, c⟩
      rw [hc] at hc1
      simp only [] at hc1
      subst hc1
      exact InvAnswer_update answer ids p i w _ _ _ _ hw h (by simp)
        (by simp only [hpc, Pc.owed])
    | connected =>
      simp only []
      rw [if_neg (not_not.mpr huser)]
      exact InvAnswer_update answer ids p i w _ _ _ _ hw h (by simp)
        (by simp only [hpc, Pc.owed])
    | loop =>
      simp only []
      rcases hq : p.articleQueue with ⟨items, fin⟩
      cases items with
      | nil =>
        cases fin with
        | false =>
          simp only [ThreadSafeQueue.try_pop, List.isEmpty_nil, Bool.not_false, Bool.and_self,
            if_true]
          rw [← hq]
          exact h
        | true =>
          simp only [ThreadSafeQueue.try_pop, List.isEmpty_nil, Bool.not_true, Bool.and_false,
            Bool.false_eq_true, if_false]
          exact InvAnswer_update answer ids p i w _ _ _ _ hw h (by simp)
            (by simp only [hpc, Pc.owed, hq])
      | cons front rest =>
        simp only [ThreadSafeQueue.try_pop, List.isEmpty_cons, Bool.false_and,
          Bool.false_eq_true, if_false]
        refine InvAnswer_update answer ids p i w _ _ _ _ hw h (by simp) ?_
        simp only [hpc, Pc.owed, hq, List.countP_cons]
        cases answer front <;> simp
        omega
    | popped articleId =>
      exact InvAnswer_update answer ids p i w _ _ _ _ hw h (by simp)
        (by simp only [hpc, Pc.owed])
    | counted articleId =>
      simp only []
      have hc1 := hcheck i w.client articleId
      rcases hc : w.client.checkNZBExists (remotes i) articleId with ⟨res, c⟩
      rw [hc] at hc1
      simp only [] at hc1
      subst hc1
      cases ha : answer articleId with
      | true =>
        exact InvAnswer_update answer ids p i w _ _ _ _ hw h (by simp)
          (by simp only [hpc, Pc.owed, ha]; simp)
      | false =>
        exact InvAnswer_update answer ids p i w _ _ _ _ hw h (by simp)
          (by simp only [hpc, Pc.owed, ha]; simp)
    | found =>
      simp only []
      rw [hpc] at hs
      simp only [Pc.unsettled] at hs
      have hinc : atomicInc p.availableArticles = p.availableArticles + 1 :=
        atomicInc_eq _ h3 (by norm_num at hn ⊢; omega)
      rw [hinc]
      exact InvAnswer_update answer ids p i w _ _ _ _ hw h (by simp)
        (by simp only [hpc, Pc.owed]; omega)
    | finished => exact h
    | failed what => exact h

theorem init_InvAnswer (cfg : ServerConfig) (rootNode : xml_node) (answer : CppString → Bool) :
    (Pool.init cfg rootNode).InvAnswer answer (suppliedIds rootNode) := by
  constructor
  · intro w hw what
    simp only [Pool.init] at hw
    rw [List.eq_of_mem_replicate hw]
    simp
  · rw [(init_queue cfg rootNode).1]
    simp [Pool.init, tally_replicate_start (Pc.owed answer) rfl]

theorem run_InvAnswer (cfg : ServerConfig) (remotes : Nat → Remote) (rootNode : xml_node)
    (answer : CppString → Bool) (schedule : List Nat)
    (hconn : ∀ k c, (NNTPClient.connect (remotes k) c cfg.server cfg.port).1 = .ok ())
    (huser : cfg.username = [])
    (hcheck : ∀ k c x, (NNTPClient.checkNZBExists (remotes k) c x).1 = .ok (answer x))
    (hn : (suppliedIds rootNode).length < 2 ^ 31) :
    (Pool.run cfg remotes rootNode schedule).InvAnswer answer (suppliedIds rootNode) := by
  have key : ∀ (sched : List Nat) (p : Pool), p.Inv (suppliedIds rootNode).length →
      p.InvAnswer answer (suppliedIds rootNode) →
      (sched.foldl (Pool.step cfg remotes) p).InvAnswer answer (suppliedIds rootNode) := by
    intro sched
    induction sched with
    | nil => intro p _ h; exact h
    | cons i rest ih =>
      intro p hI h
      exact ih _ (step_Inv cfg remotes _ p i hn hI)
        (step_InvAnswer cfg remotes answer _ _ p i hconn huser hcheck hn hI h)
  exact key schedule _ (init_Inv cfg rootNode) (init_InvAnswer cfg rootNode answer)

/-- With a server that never fails and answers by identifier, a joined pool of at
least one worker has counted every identifier and found those answered with 223. -/
theorem joined_counts (cfg : ServerConfig) (remotes : Nat → Remote) (rootNode : xml_node)
    (answer : CppString → Bool) (schedule : List Nat)
    (hconn : ∀ k c, (NNTPClient.connect (remotes k) c cfg.server cfg.port).1 = .ok ())
    (huser : cfg.username = [])
    (hcheck : ∀ k c x, (NNTPClient.checkNZBExists (remotes k) c x).1 = .ok (answer x))
    (hn : (suppliedIds rootNode).length < 2 ^ 31)
    (hk : 0 < cfg.connections)
    (hj : (Pool.run cfg remotes rootNode schedule).joined = true) :
    (Pool.run cfg remotes rootNode schedule).totalArticles
      = ((suppliedIds rootNode).length : Int) ∧
    (Pool.run cfg remotes rootNode schedule).availableArticles
      = (((suppliedIds rootNode).countP answer : Nat) : Int) := by
  obtain ⟨hnf, hsum⟩ := run_InvAnswer cfg remotes rootNode answer schedule hconn huser hcheck hn
  have hlen := run_workers_length cfg remotes rootNode schedule
  have hall : ∀ x ∈ (Pool.run cfg remotes rootNode schedule).workers, x.ended = true := by
    simpa [Pool.joined, List.all_eq_true] using hj
  have hex : (Pool.run cfg remotes rootNode schedule).workers.any Worker.completed = true := by
    rw [completed_iff]
    cases hws : (Pool.run cfg remotes rootNode schedule).workers with
    | nil =>
      rw [hws] at hlen
      simp only [List.length_nil] at hlen
      omega
    | cons w rest =>
      have hw : w ∈ (Pool.run cfg remotes rootNode schedule).workers := by simp [hws]
      refine ⟨w, List.mem_cons_self _ _, ?_⟩
      rcases ended_cases w (hall w hw) with hpc | ⟨what, hpc⟩
      · exact hpc
      · exact absurd hpc (hnf w hw what)
  obtain ⟨hq, ht⟩ := (joined_total cfg remotes rootNode schedule hn hj).2 hex
  have hz := joined_tally _ hj (Pc.owed answer) rfl (fun _ => rfl)
  rw [hz, hq] at hsum
  exact ⟨ht, by simpa using hsum⟩

theorem statServer_connect (a b : CppString) (c : NNTPClient) (server : CppString) (port : Int) :
    (c.connect (statServer a b) server port).1 = .ok () := by
  simp [NNTPClient.connect, NNTPClient.readResponse, statServer, lineServer]

theorem stat_command_eq (x y : CppString) :
    ("STAT <".toList ++ x ++ ">".toList ++ "\r\n".toList
      = "STAT <".toList ++ y ++ ">".toList ++ "\r\n".toList) ↔ x = y := by
  constructor
  · intro h
    simp only [List.append_assoc] at h
    have h1 := List.append_cancel_left h
    exact List.append_cancel_right h1
  · intro h
    rw [h]

theorem statServer_check (a b : CppString) (c : NNTPClient) (x : CppString) :
    (c.checkNZBExists (statServer a b) x).1 = .ok (decide (x = a ∨ x = b)) := by
  have hlast : (c.written ++ ["STAT <".toList ++ x ++ ">".toList ++ "\r\n".toList]).getLast?
      = some ("STAT <".toList ++ x ++ ">".toList ++ "\r\n".toList) := by simp
  simp only [NNTPClient.checkNZBExists, NNTPClient.sendCommand, NNTPClient.readResponse,
    statServer, lineServer, hlast, stat_command_eq]
  by_cases h : x = a ∨ x = b
  · rw [if_pos h]
    simp only [h, decide_True]
    rfl
  · rw [if_neg h]
    simp only [h, decide_False]
    rfl

set_option maxRecDepth 100000 in
theorem writeReport_three_two (server : CppString) :
    writeReport server 3 2
      = "———————————————————————\nHostname: ".toList ++ server
        ++ ("\nTotal Articles: 3\nAvailable Articles: 2\nAvailability: 66.6667%\n"
          ++ "_____________________________________________\n\n").toList := by
  have hline : availabilityLine 3 2 = "Availability: 66.6667%\n".toList := by rfl
  have h3 : formatInt 3 = ['3'] := by rfl
  have h2 : formatInt 2 = ['2'] := by rfl
  unfold writeReport
  rw [hline, h3, h2]
  simp [List.append_assoc]

theorem atomicInc_wrap32 (k : Nat) : atomicInc (wrap32 k) = wrap32 ((k + 1 : Nat) : Int) := by
  unfold atomicInc wrap32
  norm_num
  omega

theorem InvCount_update (n : Nat) (p : Pool) (i : Nat) (w w1 : Worker) (q : ThreadSafeQueue)
    (t a : Int) (k k1 : Nat) (hw : p.workers[i]? = some w) (h : p.InvCount n)
    (hk : k + tally Pc.uncounted p.workers + p.articleQueue.queue_.length = n)
    (hfin : q.finished_ = true) (ht : t = wrap32 k1)
    (hsum : k1 + Pc.uncounted w1.pc + q.queue_.length
      = k + Pc.uncounted w.pc + p.articleQueue.queue_.length)
    (hq1 : w1.pc = Pc.finished → q.queue_ = [])
    (hq2 : p.articleQueue.queue_ = [] → q.queue_ = []) :
    Pool.InvCount n { articleQueue := q, totalArticles := t, availableArticles := a,
                      workers := p.workers.set i w1 } := by
  obtain ⟨_, _, h5⟩ := h
  have hu := tally_set Pc.uncounted p.workers i w w1 hw
  refine ⟨hfin, ⟨k1, ht, ?_⟩, ?_⟩
  · simp only []
    omega
  · rintro ⟨x, hx, hpc⟩
    simp only [] at hx ⊢
    rcases mem_set_cases _ _ _ _ hx with hold | rfl
    · exact hq2 (h5 ⟨x, hold, hpc⟩)
    · exact hq1 hpc

theorem step_InvCount (cfg : ServerConfig) (remotes : Nat → Remote) (n : Nat) (p : Pool)
    (i : Nat) (h : p.InvCount n) : (p.step cfg remotes i).InvCount n := by
  unfold Pool.step
  cases hw : p.workers[i]? with
  | none => exact h
  | some w =>
    simp only []
    obtain ⟨h1, ⟨k, hk1, hk2⟩, h5⟩ := id h
    cases hpc : w.pc with
    | start =>
      simp only []
      rcases hc : w.client.connect (remotes i) cfg.server cfg.port with ⟨res, c⟩
      cases res with
      | ok u =>
        exact InvCount_update n p i w _ _ _ _ k k hw h hk2 h1 hk1
          (by simp only [hpc, Pc.uncounted]) (by simp) id
      | error what =>
        exact InvCount_update n p i w _ _ _ _ k k hw h hk2 h1 hk1
          (by simp only [hpc, Pc.uncounted]) (by simp) id
    | connected =>
      simp only []
      split
      · rcases hc : w.client.login (remotes i) cfg.username cfg.password with ⟨res, c⟩
        cases res with
        | ok u =>
          exact InvCount_update n p i w _ _ _ _ k k hw h hk2 h1 hk1
            (by simp only [hpc, Pc.uncounted]) (by simp) id
        | error what =>
          exact InvCount_update n p i w _ _ _ _ k k hw h hk2 h1 hk1
            (by simp only [hpc, Pc.uncounted]) (by simp) id
      · exact InvCount_update n p i w _ _ _ _ k k hw h hk2 h1 hk1
          (by simp only [hpc, Pc.uncounted]) (by simp) id
    | loop =>
      simp only []
      rcases hq : p.articleQueue with ⟨items, fin⟩
      rw [hq] at h1
      simp only [] at h1
      subst h1
      cases items with
      | nil =>
        simp only [ThreadSafeQueue.try_pop, List.isEmpty_nil, Bool.not_true, Bool.and_false,
          Bool.false_eq_true, if_false]
        exact InvCount_update n p i w _ _ _ _ k k hw h hk2 rfl hk1
          (by simp only [hpc, Pc.uncounted, hq]) (by simp) (by simp)
      | cons front rest =>
        simp only [ThreadSafeQueue.try_pop, List.isEmpty_cons, Bool.false_and,
          Bool.false_eq_true, if_false]
        exact InvCount_update n p i w _ _ _ _ k k hw h hk2 rfl hk1
          (by simp only [hpc, Pc.uncounted, hq, List.length_cons]; omega) (by simp)
          (by simp [hq])
    | popped articleId =>
      simp only []
      exact InvCount_update n p i w _ _ _ _ k (k + 1) hw h hk2 h1
        (by rw [hk1, atomicInc_wrap32]) (by simp only [hpc, Pc.uncounted])
        (by simp) id
    | counted articleId =>
      simp only []
      rcases hc : w.client.checkNZBExists (remotes i) articleId with ⟨res, c⟩
      rcases res with what | b
      · exact InvCount_update n p i w _ _ _ _ k k hw h hk2 h1 hk1
          (by simp only [hpc, Pc.uncounted]) (by simp) id
      · cases b with
        | true =>
          exact InvCount_update n p i w _ _ _ _ k k hw h hk2 h1 hk1
            (by simp only [hpc, Pc.uncounted]) (by simp) id
        | false =>
          exact InvCount_update n p i w _ _ _ _ k k hw h hk2 h1 hk1
            (by simp only [hpc, Pc.uncounted]) (by simp) id
    | found =>
      exact InvCount_update n p i w _ _ _ _ k k hw h hk2 h1 hk1
        (by simp only [hpc, Pc.uncounted]) (by simp) id
    | finished => exact h
    | failed what => exact h

theorem run_InvCount (cfg : ServerConfig) (remotes : Nat → Remote) (rootNode : xml_node)
    (schedule : List Nat) :
    (Pool.run cfg remotes rootNode schedule).InvCount (suppliedIds rootNode).length := by
  have hinit : (Pool.init cfg rootNode).InvCount (suppliedIds rootNode).length := by
    refine ⟨(init_queue cfg rootNode).2, ⟨0, ?_, ?_⟩, ?_⟩
    · simp [Pool.init, wrap32]
    · rw [(init_queue cfg rootNode).1]
      simp [Pool.init, tally_replicate_start Pc.uncounted rfl]
    · rintro ⟨w, hw, hpc⟩
      simp only [Pool.init] at hw
      rw [List.eq_of_mem_replicate hw] at hpc
      simp at hpc
  have key : ∀ (sched : List Nat) (p : Pool), p.InvCount (suppliedIds rootNode).length →
      (sched.foldl (Pool.step cfg remotes) p).InvCount (suppliedIds rootNode).length := by
    intro sched
    induction sched with
    | nil => intro p h; exact h
    | cons i rest ih => intro p h; exact ih _ (step_InvCount cfg remotes _ p i h)
  exact key schedule _ hinit

/-- In a joined pool, whatever the number of identifiers: `totalArticles` has been
incremented once for every identifier that is not left in the queue, and nothing
is left in the queue when a worker ended without an exception. -/
theorem joined_count (cfg : ServerConfig) (remotes : Nat → Remote) (rootNode : xml_node)
    (schedule : List Nat)
    (hj : (Pool.run cfg remotes rootNode schedule).joined = true) :
    tally Pc.uncounted (Pool.run cfg remotes rootNode schedule).workers = 0 ∧
    (∃ k : Nat,
      k + (Pool.run cfg remotes rootNode schedule).articleQueue.queue_.length
        = (suppliedIds rootNode).length ∧
      (Pool.run cfg remotes rootNode schedule).totalArticles = wrap32 k) ∧
    ((Pool.run cfg remotes rootNode schedule).workers.any Worker.completed = true →
      (Pool.run cfg remotes rootNode schedule).articleQueue.queue_ = [] ∧
      (Pool.run cfg remotes rootNode schedule).totalArticles
        = wrap32 ((suppliedIds rootNode).length : Nat)) := by
  obtain ⟨_, ⟨k, hk1, hk2⟩, h5⟩ := run_InvCount cfg remotes rootNode schedule
  have hz := joined_tally _ hj Pc.uncounted rfl (fun _ => rfl)
  rw [hz] at hk2
  refine ⟨hz, ⟨k, by omega, hk1⟩, ?_⟩
  intro hc
  have hq := h5 ((completed_iff _).mp hc)
  rw [hq] at hk2
  simp only [List.length_nil] at hk2
  have hkn : k = (suppliedIds rootNode).length := by omega
  exact ⟨hq, by rw [hk1, hkn]⟩

theorem InvFound_update (answer : CppString → Bool) (ids : List CppString) (p : Pool)
    (i : Nat) (w w1 : Worker) (q : ThreadSafeQueue) (t a : Int) (k k1 : Nat)
    (hw : p.workers[i]? = some w) (h : p.InvFound answer ids)
    (hk : k + tally (Pc.owed answer) p.workers + p.articleQueue.queue_.countP answer
      = ids.countP answer)
    (hnf : ∀ what, w1.pc ≠ Pc.failed what) (ha : a = wrap32 k1)
    (hsum : k1 + Pc.owed answer w1.pc + q.queue_.countP answer
      = k + Pc.owed answer w.pc + p.articleQueue.queue_.countP answer) :
    Pool.InvFound answer ids { articleQueue := q, totalArticles := t, availableArticles := a,
                               workers := p.workers.set i w1 } := by
  obtain ⟨h1, _⟩ := h
  have ho := tally_set (Pc.owed answer) p.workers i w w1 hw
  constructor
  · intro x hx
    simp only [] at hx
    rcases mem_set_cases _ _ _ _ hx with hold | rfl
    · exact h1 x hold
    · exact hnf
  · refine ⟨k1, ha, ?_⟩
    simp only []
    omega

theorem step_InvFound (cfg : ServerConfig) (remotes : Nat → Remote)
    (answer : CppString → Bool) (ids : List CppString) (p : Pool) (i : Nat)
    (hconn : ∀ k c, (NNTPClient.connect (remotes k) c cfg.server cfg.port).1 = .ok ())
    (huser : cfg.username = [])
    (hcheck : ∀ k c x, (NNTPClient.checkNZBExists (remotes k) c x).1 = .ok (answer x))
    (h : p.InvFound answer ids) : (p.step cfg remotes i).InvFound answer ids := by
  unfold Pool.step
  cases hw : p.workers[i]? with
  | none => exact h
  | some w =>
    simp only []
    obtain ⟨_, k, hk1, hk2⟩ := id h
    cases hpc : w.pc with
    | start =>
      simp only []
      have hc1 := hconn i w.client
      rcases hc : w.client.connect (remotes i) cfg.server cfg.port with ⟨res, c⟩
      rw [hc] at hc1
      simp only [] at hc1
      subst hc1
      exact InvFound_update answer ids p i w _ _ _ _ k k hw h hk2 (by simp) hk1
        (by simp only [hpc, Pc.owed])
    | connected =>
      simp only []
      rw [if_neg (not_not.mpr huser)]
      exact InvFound_update answer ids p i w _ _ _ _ k k hw h hk2 (by simp) hk1
        (by simp only [hpc, Pc.owed])
    | loop =>
      simp only []
      rcases hq : p.articleQueue with ⟨items, fin⟩
      cases items with
      | nil =>
        cases fin with
        | false =>
          simp only [ThreadSafeQueue.try_pop, List.isEmpty_nil, Bool.not_false, Bool.and_self,
            if_true]
          rw [← hq]
          exact h
        | true =>
          simp only [ThreadSafeQueue.try_pop, List.isEmpty_nil, Bool.not_true, Bool.and_false,
            Bool.false_eq_true, if_false]
          exact InvFound_update answer ids p i w _ _ _ _ k k hw h hk2 (by simp) hk1
            (by simp only [hpc, Pc.owed, hq])
      | cons front rest =>
        simp only [ThreadSafeQueue.try_pop, List.isEmpty_cons, Bool.false_and,
          Bool.false_eq_true, if_false]
        refine InvFound_update answer ids p i w _ _ _ _ k k hw h hk2 (by simp) hk1 ?_
        simp only [hpc, Pc.owed, hq, List.countP_cons]
        cases answer front <;> simp
        omega
    | popped articleId =>
      exact InvFound_update answer ids p i w _ _ _ _ k k hw h hk2 (by simp) hk1
        (by simp only [hpc, Pc.owed])
    | counted articleId =>
      simp only []
      have hc1 := hcheck i w.client articleId
      rcases hc : w.client.checkNZBExists (remotes i) articleId with ⟨res, c⟩
      rw [hc] at hc1
      simp only [] at hc1
      subst hc1
      cases ha : answer articleId with
      | true =>
        exact InvFound_update answer ids p i w _ _ _ _ k k hw h hk2 (by simp) hk1
          (by simp only [hpc, Pc.owed, ha]; simp)
      | false =>
        exact InvFound_update answer ids p i w _ _ _ _ k k hw h hk2 (by simp) hk1
          (by simp only [hpc, Pc.owed, ha]; simp)
    | found =>
      simp only []
      exact InvFound_update answer ids p i w _ _ _ _ k (k + 1) hw h hk2 (by simp)
        (by rw [hk1, atomicInc_wrap32]) (by simp only [hpc, Pc.owed])
    | finished => exact h
    | failed what => exact h

theorem run_InvFound (cfg : ServerConfig) (remotes : Nat → Remote) (rootNode : xml_node)
    (answer : CppString → Bool) (schedule : List Nat)
    (hconn : ∀ k c, (NNTPClient.connect (remotes k) c cfg.server cfg.port).1 = .ok ())
    (huser : cfg.username = [])
    (hcheck : ∀ k c x, (NNTPClient.checkNZBExists (remotes k) c x).1 = .ok (answer x)) :
    (Pool.run cfg remotes rootNode schedule).InvFound answer (suppliedIds rootNode) := by
  have hinit : (Pool.init cfg rootNode).InvFound answer (suppliedIds rootNode) := by
    constructor
    · intro w hw what
      simp only [Pool.init] at hw
      rw [List.eq_of_mem_replicate hw]
      simp
    · refine ⟨0, by simp [Pool.init, wrap32], ?_⟩
      rw [(init_queue cfg rootNode).1]
      simp [Pool.init, tally_replicate_start (Pc.owed answer) rfl]
  have key : ∀ (sched : List Nat) (p : Pool), p.InvFound answer (suppliedIds rootNode) →
      (sched.foldl (Pool.step cfg remotes) p).InvFound answer (suppliedIds rootNode) := by
    intro sched
    induction sched with
    | nil => intro p h; exact h
    | cons i rest ih =>
      intro p h
      exact ih _ (step_InvFound cfg remotes answer _ p i hconn huser hcheck h)
  exact key schedule _ hinit

/-- With a server that never fails and answers by identifier, whatever the number
of identifiers: a joined pool of at least one worker holds in its two counters
the number supplied and the number answered with 223, each reduced to 32 bits. -/
theorem joined_counts_wrap (cfg : ServerConfig) (remotes : Nat → Remote) (rootNode : xml_node)
    (answer : CppString → Bool) (schedule : List Nat)
    (hconn : ∀ k c, (NNTPClient.connect (remotes k) c cfg.server cfg.port).1 = .ok ())
    (huser : cfg.username = [])
    (hcheck : ∀ k c x, (NNTPClient.checkNZBExists (remotes k) c x).1 = .ok (answer x))
    (hk : 0 < cfg.connections)
    (hj : (Pool.run cfg remotes rootNode schedule).joined = true) :
    (Pool.run cfg remotes rootNode schedule).totalArticles
      = wrap32 ((suppliedIds rootNode).length : Nat) ∧
    (Pool.run cfg remotes rootNode schedule).availableArticles
      = wrap32 (((suppliedIds rootNode).countP answer : Nat)) := by
  obtain ⟨hnf, k, hk1, hk2⟩ :=
    run_InvFound cfg remotes rootNode answer schedule hconn huser hcheck
  have hlen := run_workers_length cfg remotes rootNode schedule
  have hall : ∀ x ∈ (Pool.run cfg remotes rootNode schedule).workers, x.ended = true := by
    simpa [Pool.joined, List.all_eq_true] using hj
  have hex : (Pool.run cfg remotes rootNode schedule).workers.any Worker.completed = true := by
    rw [completed_iff]
    cases hws : (Pool.run cfg remotes rootNode schedule).workers with
    | nil =>
      rw [hws] at hlen
      simp only [List.length_nil] at hlen
      omega
    | cons w rest =>
      have hw : w ∈ (Pool.run cfg remotes rootNode schedule).workers := by simp [hws]
      refine ⟨w, List.mem_cons_self _ _, ?_⟩
      rcases ended_cases w (hall w hw) with hpc | ⟨what, hpc⟩
      · exact hpc
      · exact absurd hpc (hnf w hw what)
  obtain ⟨hq, ht⟩ := (joined_count cfg remotes rootNode schedule hj).2.2 hex
  have hz := joined_tally _ hj (Pc.owed answer) rfl (fun _ => rfl)
  rw [hz, hq] at hk2
  simp only [List.countP_nil, Nat.add_zero] at hk2
  exact ⟨ht, by rw [hk1, hk2]⟩

theorem segmentValues_manifestOf (segments : List String) :
    segmentValues (manifestOf segments) = segments.map String.toList := by
  have hf : ∀ l : List String,
      (l.map (fun v => XmlNode.elem "segment" [XmlNode.text v])).filter
          (fun sg => sg.name = "segment".toList)
        = l.map (fun v => XmlNode.elem "segment" [XmlNode.text v]) := by
    intro l
    apply List.filter_eq_self.mpr
    intro x hx
    obtain ⟨v, _, rfl⟩ := List.mem_map.mp hx
    simp [XmlNode.elem, XmlNode.name]
  have hfile : fileSegmentValues (XmlNode.elem "file"
      [XmlNode.elem "segments"
        (segments.map (fun v => XmlNode.elem "segment" [XmlNode.text v]))])
      = segments.map String.toList := by
    have hfind : (XmlNode.elem "file"
        [XmlNode.elem "segments"
          (segments.map (fun v => XmlNode.elem "segment" [XmlNode.text v]))]).children.find?
          (fun g => g.name = "segments".toList)
        = some (XmlNode.elem "segments"
          (segments.map (fun v => XmlNode.elem "segment" [XmlNode.text v]))) := by
      simp [XmlNode.elem, XmlNode.children, XmlNode.name, List.find?_cons]
    unfold fileSegmentValues
    rw [hfind]
    simp only []
    have hch : (XmlNode.elem "segments"
        (segments.map (fun v => XmlNode.elem "segment" [XmlNode.text v]))).children
        = segments.map (fun v => XmlNode.elem "segment" [XmlNode.text v]) := rfl
    rw [hch, hf, List.map_map]
    apply List.map_congr_left
    intro v _
    simp [XmlNode.elem, XmlNode.text, XmlNode.children, firstText, XmlNode.type, XmlNode.value]
  have hroot : (XmlNode.elem "nzb"
      [XmlNode.elem "file"
        [XmlNode.elem "segments"
          (segments.map (fun v => XmlNode.elem "segment" [XmlNode.text v]))]]).children.filter
        (fun f => f.name = "file".toList)
      = [XmlNode.elem "file"
        [XmlNode.elem "segments"
          (segments.map (fun v => XmlNode.elem "segment" [XmlNode.text v]))]] := by
    simp [XmlNode.elem, XmlNode.children, XmlNode.name, List.filter_cons]
  unfold manifestOf segmentValues
  simp only []
  rw [hroot]
  simp only [List.flatMap_cons, List.flatMap_nil, List.append_nil]
  exact hfile

theorem suppliedIds_manifestOf (segments : List String)
    (hne : ∀ v ∈ segments, v.toList ≠ []) :
    suppliedIds (manifestOf segments) = segments.map String.toList := by
  unfold suppliedIds
  rw [(enqueueArticles_eq (manifestOf segments) ThreadSafeQueue.new).1,
    segmentValues_manifestOf]
  simp only [ThreadSafeQueue.new, List.nil_append]
  apply List.filter_eq_self.mpr
  intro x hx
  obtain ⟨v, hv, rfl⟩ := List.mem_map.mp hx
  simpa using hne v hv

theorem countP_replicate_append (answer : CppString → Bool) (a c : CppString) (n : Nat)
    (ha : answer a = true) (hc : answer c = false) :
    (List.replicate n a ++ [c]).countP answer = n := by
  induction n with
  | zero => simp [hc]
  | succ n ih =>
    rw [List.replicate_succ, List.cons_append, List.countP_cons, ih, ha]
    simp

/-- One worker, `n` identifiers answered with 223 followed by one answered with
430: under the round-robin schedule the pool is joined and its counters hold
`n + 1` and `n`, each reduced to 32 bits. -/
theorem overflow_run (n : Nat) :
    (Pool.run (plainConfig 1) (fun _ => statServer "a".toList "a".toList)
        (manifestOf (List.replicate n "a" ++ ["c"]))
        (roundRobin 1 (4 * (n + 1) + 3))).joined = true ∧
    (Pool.run (plainConfig 1) (fun _ => statServer "a".toList "a".toList)
        (manifestOf (List.replicate n "a" ++ ["c"]))
        (roundRobin 1 (4 * (n + 1) + 3))).totalArticles = wrap32 ((n + 1 : Nat) : Int) ∧
    (Pool.run (plainConfig 1) (fun _ => statServer "a".toList "a".toList)
        (manifestOf (List.replicate n "a" ++ ["c"]))
        (roundRobin 1 (4 * (n + 1) + 3))).availableArticles = wrap32 ((n : Nat) : Int) ∧
    (suppliedIds (manifestOf (List.replicate n "a" ++ ["c"]))).length = n + 1 := by
  have hids : suppliedIds (manifestOf (List.replicate n "a" ++ ["c"]))
      = List.replicate n "a".toList ++ ["c".toList] := by
    rw [suppliedIds_manifestOf]
    · rw [List.map_append, List.map_replicate]
      rfl
    · intro v hv
      rcases List.mem_append.mp hv with h | h
      · rw [List.eq_of_mem_replicate h]
        decide
      · rw [List.mem_singleton.mp h]
        decide
  have hlen : (suppliedIds (manifestOf (List.replicate n "a" ++ ["c"]))).length = n + 1 := by
    rw [hids, List.length_append, List.length_replicate]
    rfl
  have hj := run_roundRobin_joined (plainConfig 1)
    (fun _ => statServer "a".toList "a".toList) (manifestOf (List.replicate n "a" ++ ["c"]))
  rw [hlen] at hj
  have hconn : (plainConfig 1).connections.toNat = 1 := rfl
  rw [hconn, Nat.mul_one] at hj
  obtain ⟨ht, ha⟩ := joined_counts_wrap (plainConfig 1)
    (fun _ => statServer "a".toList "a".toList) (manifestOf (List.replicate n "a" ++ ["c"]))
    (fun x => decide (x = "a".toList ∨ x = "a".toList)) (roundRobin 1 (4 * (n + 1) + 3))
    (fun _ cl => statServer_connect _ _ cl _ _) rfl
    (fun _ cl x => statServer_check _ _ cl x) (by decide) hj
  rw [hlen] at ht
  rw [hids, countP_replicate_append _ _ _ n (by decide) (by decide)] at ha
  exact ⟨hj, ht, ha, hlen⟩

theorem wrap32_two_pow : wrap32 ((2147483647 + 1 : Nat) : Int) = -2147483648 ∧
    wrap32 ((2147483647 : Nat) : Int) = 2147483647 := by
  constructor <;> (unfold wrap32; norm_num)

/-- C7, as stated, fails: with identifiers a, b, c, two connections and a server
answering 223 for a and b and 430 for c, the block shows Total Articles 3 and
Available Articles 2, and its availability line reads `66.6667%`, not `66.67%`. -/
theorem report_shows_six_digits :
    processServer (plainConfig 2) (fun _ => statServer "a".toList "b".toList)
        (manifestOf ["a", "b", "c"]) [0, 1, 0, 1, 0, 1, 0, 1, 0, 1, 0, 1, 0, 0, 0, 0, 1, 1, 1]
      = some ("———————————————————————\nHostname: news.example.org\nTotal Articles: 3\n"
          ++ "Available Articles: 2\nAvailability: 66.6667%\n"
          ++ "_____________________________________________\n\n").toList ∧
    availabilityLine 3 2 = "Availability: 66.6667%\n".toList ∧
    availabilityLine 3 2 ≠ "Availability: 66.67%\n".toList := by
  set_option maxRecDepth 100000 in
  refine ⟨by rfl, by rfl, by decide⟩

/-- C7 (amended): for a manifest whose identifiers are a, b, c, a server with two
connections and no credentials that answers `STAT` with 223 for a and b and with
430 for c: the block written, under the round-robin schedule and under every
schedule that lets both workers end, shows Total Articles 3, Available Articles
2 and Availability 66.6667%. -/
theorem report_three_articles (cfg : ServerConfig) (rootNode : xml_node)
    (a b c : CppString)
    (hids : suppliedIds rootNode = [a, b, c]) (hca : c ≠ a) (hcb : c ≠ b)
    (hconn : cfg.connections = 2) (huser : cfg.username = []) :
    processServer cfg (fun _ => statServer a b) rootNode (roundRobin 2 18)
      = some ("———————————————————————\nHostname: ".toList ++ cfg.server
        ++ ("\nTotal Articles: 3\nAvailable Articles: 2\nAvailability: 66.6667%\n"
          ++ "_____________________________________________\n\n").toList) ∧
    (∀ schedule : List Nat,
      (Pool.run cfg (fun _ => statServer a b) rootNode schedule).joined = true →
      processServer cfg (fun _ => statServer a b) rootNode schedule
        = some ("———————————————————————\nHostname: ".toList ++ cfg.server
          ++ ("\nTotal Articles: 3\nAvailable Articles: 2\nAvailability: 66.6667%\n"
            ++ "_____________________________________________\n\n").toList)) := by
  have hn : (suppliedIds rootNode).length < 2 ^ 31 := by
    rw [hids]
    norm_num
  have hcount : ([a, b, c].countP (fun x => decide (x = a ∨ x = b))) = 2 := by
    simp [List.countP_cons, hca, hcb]
  have key : ∀ schedule : List Nat,
      (Pool.run cfg (fun _ => statServer a b) rootNode schedule).joined = true →
      processServer cfg (fun _ => statServer a b) rootNode schedule
        = some ("———————————————————————\nHostname: ".toList ++ cfg.server
          ++ ("\nTotal Articles: 3\nAvailable Articles: 2\nAvailability: 66.6667%\n"
            ++ "_____________________________________________\n\n").toList) := by
    intro schedule hj
    obtain ⟨ht, ha⟩ := joined_counts cfg (fun _ => statServer a b) rootNode
      (fun x => decide (x = a ∨ x = b)) schedule
      (fun _ cl => statServer_connect a b cl _ _) huser
      (fun _ cl x => statServer_check a b cl x) hn (by rw [hconn]; norm_num) hj
    rw [hids] at ht ha
    rw [hcount] at ha
    unfold processServer
    rw [if_pos hj]
    unfold Pool.report
    rw [ht, ha]
    exact congrArg some (writeReport_three_two cfg.server)
  refine ⟨key _ ?_, key⟩
  have hj := run_roundRobin_joined cfg (fun _ => statServer a b) rootNode
  rw [hids, hconn] at hj
  exact hj

/-- C7 (amended) at the identifiers a, b, c under an alternating schedule. -/
theorem report_three_articles_witness :
    processServer (plainConfig 2) (fun _ => statServer "a".toList "b".toList)
        (manifestOf ["a", "b", "c"]) [0, 1, 0, 1, 0, 1, 0, 1, 0, 1, 0, 1, 0, 0, 0, 0, 1, 1, 1]
      = some ("———————————————————————\nHostname: ".toList ++ (plainConfig 2).server
        ++ ("\nTotal Articles: 3\nAvailable Articles: 2\nAvailability: 66.6667%\n"
          ++ "_____________________________________________\n\n").toList) :=
  (report_three_articles (plainConfig 2) (manifestOf ["a", "b", "c"])
    "a".toList "b".toList "c".toList (by rfl) (by decide) (by decide) (by rfl) (by rfl)).2
    [0, 1, 0, 1, 0, 1, 0, 1, 0, 1, 0, 1, 0, 0, 0, 0, 1, 1, 1] (by rfl)

/-- C5, as stated, fails: with one worker that never fails and 2^31 identifiers, the
first 2^31 - 1 answered with 223 and the last with 430, the pool is joined with
`totalArticles = -2^31` (the counter has wrapped) and `availableArticles =
2^31 - 1`, and these are the values passed to `writeReport`. -/
theorem available_exceeds_total_after_wrap :
    (Pool.run (plainConfig 1) (fun _ => statServer "a".toList "a".toList)
        (manifestOf (List.replicate 2147483647 "a" ++ ["c"]))
        (roundRobin 1 (4 * (2147483647 + 1) + 3))).totalArticles = -2147483648 ∧
    (Pool.run (plainConfig 1) (fun _ => statServer "a".toList "a".toList)
        (manifestOf (List.replicate 2147483647 "a" ++ ["c"]))
        (roundRobin 1 (4 * (2147483647 + 1) + 3))).availableArticles = 2147483647 ∧
    ¬ ((Pool.run (plainConfig 1) (fun _ => statServer "a".toList "a".toList)
        (manifestOf (List.replicate 2147483647 "a" ++ ["c"]))
        (roundRobin 1 (4 * (2147483647 + 1) + 3))).availableArticles
      ≤ (Pool.run (plainConfig 1) (fun _ => statServer "a".toList "a".toList)
        (manifestOf (List.replicate 2147483647 "a" ++ ["c"]))
        (roundRobin 1 (4 * (2147483647 + 1) + 3))).totalArticles) ∧
    processServer (plainConfig 1) (fun _ => statServer "a".toList "a".toList)
        (manifestOf (List.replicate 2147483647 "a" ++ ["c"]))
        (roundRobin 1 (4 * (2147483647 + 1) + 3))
      = some (writeReport (plainConfig 1).server (-2147483648) 2147483647) := by
  obtain ⟨hj, ht, ha, _⟩ := overflow_run 2147483647
  have ht2 := ht.trans wrap32_two_pow.1
  have ha2 := ha.trans wrap32_two_pow.2
  refine ⟨ht2, ha2, ?_, ?_⟩
  · rw [ht2, ha2]
    norm_num
  · unfold processServer
    rw [if_pos hj]
    unfold Pool.report
    rw [ht2, ha2]

/-- C5 (amended): in every state that a pool given fewer than 2^31 identifiers reaches,
under any schedule and any behaviour of the peers, `availableArticles` is between
0 and `totalArticles`, and `totalArticles` is at most the number of identifiers
supplied; the same holds of the two values passed to `writeReport`. -/
theorem available_le_total (cfg : ServerConfig) (remotes : Nat → Remote) (rootNode : xml_node)
    (schedule : List Nat) (hn : (suppliedIds rootNode).length < 2 ^ 31) :
    0 ≤ (Pool.run cfg remotes rootNode schedule).availableArticles ∧
    (Pool.run cfg remotes rootNode schedule).availableArticles
      ≤ (Pool.run cfg remotes rootNode schedule).totalArticles ∧
    (Pool.run cfg remotes rootNode schedule).totalArticles
      ≤ ((suppliedIds rootNode).length : Int) ∧
    (∀ text, processServer cfg remotes rootNode schedule = some text →
      ∃ total available : Int, available ≤ total ∧
        text = writeReport cfg.server total available) := by
  obtain ⟨_, h2, h3, h4, _⟩ := run_Inv cfg remotes rootNode schedule hn
  have hle : (Pool.run cfg remotes rootNode schedule).availableArticles
      ≤ (Pool.run cfg remotes rootNode schedule).totalArticles := by omega
  refine ⟨h3, hle, by omega, ?_⟩
  intro text ht
  unfold processServer at ht
  split at ht
  · injection ht with ht
    exact ⟨_, _, hle, ht.symm⟩
  · cases ht

/-- C5 (amended) in the state where a worker has counted an identifier and not yet checked it. -/
theorem available_le_total_witness :
    (suppliedIds (manifestOf ["a", "b", "c"])).length < 2 ^ 31 ∧
    (Pool.run (plainConfig 2) (fun _ => statServer "a".toList "b".toList)
        (manifestOf ["a", "b", "c"]) [0, 0, 0, 0]).availableArticles
      ≤ (Pool.run (plainConfig 2) (fun _ => statServer "a".toList "b".toList)
        (manifestOf ["a", "b", "c"]) [0, 0, 0, 0]).totalArticles :=
  ⟨by decide,
   (available_le_total (plainConfig 2) (fun _ => statServer "a".toList "b".toList)
      (manifestOf ["a", "b", "c"]) [0, 0, 0, 0] (by decide)).2.1⟩

end CrossNzb
